import Mathlib

/-!
A shallow embedding of the "Sweep" card-game rules engine
(src/models.py, src/actions.py, src/sweep_game.py), together with
theorems checking the natural-language specification against it.

Conventions of the embedding:
* A `Card` is identified, as in the source, by its rank and suit; the
  rank is represented by its derived numeric value (the rank-to-value
  map `CARD_VALUES` is a bijection onto 1..13).  Suits are numbered by
  their index in `SUITS`: 0 = spades, 1 = hearts, 2 = diamonds,
  3 = clubs.  Python card equality (`__eq__`, rank and suit only,
  ignoring `points`) is `Card.sameId`.
* Players are referred to by index (0 or 1) wherever the source passes
  `Player` objects around (pile creator sets, `last_to_pick_up`).
* The `piles` dict (value -> Pile) is an insertion-ordered association
  list; `Pile.__init__`, which raises on a bad card sum (including the
  `ZeroDivisionError` for a zero declared value), is the
  `Option`-valued `mkPile`.
* Operations that can raise in Python (`list.remove`, `del dict[k]`,
  the `Pile` constructor) are `Option`-valued; the action `execute`
  methods thread them through the `Option` monad.
-/

namespace Sweep

/-- A playing card: `value` is the numeric value of the rank (A=1..K=13),
`suit` is the index into `SUITS`, `points` the per-round scoring weight. -/
structure Card where
  value : Nat
  suit : Nat
  points : Nat
deriving DecidableEq, Repr

/-- Python `Card.__eq__`: identity by rank and suit only. -/
def Card.sameId (a b : Card) : Bool :=
  a.value == b.value && a.suit == b.suit

/-- The identity of a card, as compared by the source's `__eq__`/`__hash__`. -/
def cardId (c : Card) : Nat × Nat := (c.value, c.suit)

/-- A pile on the table (src/models.py `Pile`), with creators stored as
player indices.  The `doubled` flag is the one computed at construction. -/
structure Pile where
  creators : List Nat
  cards : List Card
  value : Nat
  doubled : Bool
deriving DecidableEq, Repr

/-- `Pile.__init__`: fails (`none`) when the card values do not sum to an
exact multiple of `value` (a zero `value` raises `ZeroDivisionError` in the
source, also a failure); otherwise sets `doubled` to whether the quotient
is at least 2. -/
def mkPile (creators : List Nat) (cards : List Card) (value : Nat) : Option Pile :=
  if value = 0 then none
  else if (cards.map Card.value).sum % value = 0 then
    some ⟨creators, cards, value, decide (2 ≤ (cards.map Card.value).sum / value)⟩
  else none

/-- A table item is a bare card or a pile. -/
inductive TableItem where
  | card : Card → TableItem
  | pile : Pile → TableItem
deriving DecidableEq, Repr

/-- The numeric value of a table item (`x.value` in the source). -/
def TableItem.value : TableItem → Nat
  | .card c => c.value
  | .pile p => p.value

/-- `isinstance(x, Pile)`. -/
def TableItem.isPileB : TableItem → Bool
  | .card _ => false
  | .pile _ => true

/-- `x.doubled` (only ever read on piles). -/
def TableItem.doubledB : TableItem → Bool
  | .card _ => false
  | .pile p => p.doubled

/-- `player in x.creators` for the player with index `t`. -/
def TableItem.creatorsContain (t : Nat) : TableItem → Bool
  | .card _ => false
  | .pile p => p.creators.contains t

/-- Python `==` between two table items: cards compare by rank+suit,
piles (which define no `__eq__`) by identity, modelled structurally;
a card never equals a pile. -/
def itemEq : TableItem → TableItem → Bool
  | .card a, .card b => Card.sameId a b
  | .pile p, .pile q => p == q
  | _, _ => false

/-- Python `==` between a table item and a bare `Card`. -/
def itemEqCard : TableItem → Card → Bool
  | .card c, a => Card.sameId c a
  | .pile _, _ => false

/-- A player (src/models.py `Player`), minus the display-only name/AI flag. -/
structure Player where
  hand : List Card
  captured : List Card
  sweeps : Nat
  points : Nat
deriving DecidableEq, Repr

/-- The three action kinds. -/
inductive ActionType where
  | pickUp
  | pileOn
  | throw
deriving DecidableEq, Repr

/-- An action (src/models.py `Action`): the played card, the target value
and the consumed table items. -/
structure Action where
  actionType : ActionType
  playedCard : Card
  value : Nat
  otherItems : List TableItem
deriving DecidableEq, Repr

/-- The whole mutable game state of `SweepGame`. -/
structure GameState where
  deck : List Card
  table : List TableItem
  player0 : Player
  player1 : Player
  piles : List (Nat × Pile)
  lastToPickUp : Option Nat
  pointDifferential : Int
  round : Nat
  turn : Nat
deriving DecidableEq, Repr

/-- `self.players[self.turn]` (turn is always 0 or 1 in the source). -/
def GameState.mover (g : GameState) : Player :=
  if g.turn = 0 then g.player0 else g.player1

/-- `self.players[1 - self.turn]`. -/
def GameState.otherPlayer (g : GameState) : Player :=
  if g.turn = 0 then g.player1 else g.player0

/-- Replace the moving player's record. -/
def GameState.setMover (g : GameState) (p : Player) : GameState :=
  if g.turn = 0 then { g with player0 := p } else { g with player1 := p }

/-- Dict lookup `self.piles[v]` / `v in self.piles`. -/
def alistLookup : List (Nat × Pile) → Nat → Option Pile
  | [], _ => none
  | (k, p) :: m, v => if k = v then some p else alistLookup m v

/-- `del self.piles[k]`: `none` models the `KeyError` when `k` is absent. -/
def alistErase : List (Nat × Pile) → Nat → Option (List (Nat × Pile))
  | [], _ => none
  | (k, p) :: m, v =>
    if k = v then some m else (alistErase m v).map ((k, p) :: ·)

/-- `self.piles[k] = p`: replace in place when the key exists (dicts keep
insertion order), append otherwise. -/
def alistInsert : List (Nat × Pile) → Nat → Pile → List (Nat × Pile)
  | [], k, p => [(k, p)]
  | (k', p') :: m, k, p =>
    if k' = k then (k, p) :: m else (k', p') :: alistInsert m k p

/-- `list.remove` on a card list by Python card equality; `none` models
the `ValueError` when no element matches. -/
def removeCard : List Card → Card → Option (List Card)
  | [], _ => none
  | y :: ys, x => if Card.sameId y x then some ys else (removeCard ys x).map (y :: ·)

/-- `list.remove` on the table by Python item equality. -/
def removeItem : List TableItem → TableItem → Option (List TableItem)
  | [], _ => none
  | y :: ys, x => if itemEq y x then some ys else (removeItem ys x).map (y :: ·)

/-- `combo.remove(card)` in `get_valid_actions`, made total: Python would
raise when no item matches, which is proved never to happen for
generator-produced combinations. -/
def removeCardFromItems (l : List TableItem) (c : Card) : List TableItem :=
  match l with
  | [] => []
  | y :: ys => if itemEqCard y c then ys else y :: removeCardFromItems ys c

/-- Stable insertion of an earlier element into the sorted list of later
elements: goes before the first element of value not below its own. -/
def insertByValue (x : TableItem) : List TableItem → List TableItem
  | [] => [x]
  | y :: ys => if y.value < x.value then y :: insertByValue x ys else x :: y :: ys

/-- `table.sort()`: the unique stable ascending sort by item value, the
result Python's Timsort produces with `__lt__` comparing values. -/
def sortByValue : List TableItem → List TableItem
  | [] => []
  | x :: xs => insertByValue x (sortByValue xs)

/-- `itertools.combinations(l, n)`: all length-`n` sublists of `l`, in the
lexicographic index order itertools yields them. -/
def combinations {α : Type} : Nat → List α → List (List α)
  | 0, _ => [[]]
  | _ + 1, [] => []
  | n + 1, x :: xs => (combinations n xs).map (x :: ·) ++ combinations (n + 1) xs

/-- `for r in range(1, len(l)+1): for combo in combinations(l, r)`. -/
def allNonemptySubs {α : Type} (l : List α) : List (List α) :=
  (List.range l.length).flatMap (fun r => combinations (r + 1) l)

/-- The summed value of a group of table items. -/
def sumValues (l : List TableItem) : Nat := (l.map TableItem.value).sum

/-- `equalities` before the optional addition: the table items whose value
equals the target (sweep_game.py line 214). -/
def equalitiesBase (table : List TableItem) (value : Nat) : List TableItem :=
  table.filter (fun x => x.value == value)

/-- The strictly-lower-value candidate pool before the optional addition
(sweep_game.py lines 215-223): bare cards always pass, piles only when an
addition is present, the pile is not doubled and the mover did not create
it. -/
def poolBase (table : List TableItem) (turn : Nat) (value : Nat) (hasAddition : Bool) :
    List TableItem :=
  table.filter (fun x =>
    decide (x.value < value) &&
    !(x.isPileB && (!hasAddition || x.doubledB || x.creatorsContain turn)))

/-- Membership of an item in a list by Python item equality (the
`used_cards` set). -/
def itemMem (x : TableItem) (l : List TableItem) : Bool := l.any (itemEq x)

/-- No two items of the list are equal in Python's sense: the incremental
`used_cards` duplicate check succeeds. -/
def allDistinctItems : List TableItem → Bool
  | [] => true
  | x :: xs => !(itemMem x xs) && allDistinctItems xs

/-- `addition in used_cards` for a set of table items. -/
def itemsContainCard (l : List TableItem) (a : Card) : Bool :=
  l.any (fun it => itemEqCard it a)

/-- Python `==` between two groups (lists) of table items. -/
def groupEq (g h : List TableItem) : Bool :=
  g.length == h.length && (g.zip h).all (fun pr => itemEq pr.1 pr.2)

/-- The filter applied to one selection of exact-sum groups
(sweep_game.py lines 249-270): pairwise card-disjointness, participation
of a non-equality addition, and maximality (every unselected group meets
the used cards). -/
def selectionValid (tvc : List (List TableItem)) (sel : List (List TableItem))
    (addition : Option Card) (additionIsEqual : Bool) : Bool :=
  allDistinctItems sel.flatten &&
  (match addition with
   | some a => additionIsEqual || itemsContainCard sel.flatten a
   | none => true) &&
  (tvc.filter (fun uc => !(sel.any (groupEq uc)))).all
    (fun uc => uc.any (fun it => itemMem it sel.flatten))

/-- The subsets of the (sorted) candidate pool whose values sum exactly to
the target: `target_value_combos` (sweep_game.py lines 238-243). -/
def exactGroups (pool : List TableItem) (value : Nat) : List (List TableItem) :=
  (allNonemptySubs pool).filter (fun c => sumValues c == value)

/-- The flattened outputs of all valid selections over a fixed exact-sum
group list (the `unique_maximal_combos` accumulation of sweep_game.py
lines 245-272). -/
def combosBase (tvc : List (List TableItem)) (equalities : List TableItem)
    (addition : Option Card) (additionIsEqual : Bool) : List (List TableItem) :=
  (allNonemptySubs tvc).filterMap (fun sel =>
    if selectionValid tvc sel addition additionIsEqual then
      some (sel.flatten ++ equalities)
    else none)

/-- The core of `number_combinations` after `equalities`, the candidate
pool and the addition flags are fixed: sort the pool, enumerate the
exact-sum groups and the valid selections over them, and fall back to
`equalities` alone under the source's fallback condition (sweep_game.py
lines 236-278). -/
def combosCore (equalities pool : List TableItem) (addition : Option Card)
    (additionIsEqual : Bool) (value : Nat) : List (List TableItem) :=
  if (addition.isNone || (additionIsEqual && decide (1 < equalities.length))) &&
      (combosBase (exactGroups (sortByValue pool) value) equalities addition
        additionIsEqual).isEmpty &&
      !equalities.isEmpty then
    [equalities]
  else
    combosBase (exactGroups (sortByValue pool) value) equalities addition
      additionIsEqual

/-- `SweepGame.number_combinations(value, addition)` (sweep_game.py lines
213-278), reading the table and the moving player's index. -/
def number_combinations (table : List TableItem) (turn : Nat) (value : Nat)
    (addition : Option Card) : List (List TableItem) :=
  match addition with
  | none => combosCore (equalitiesBase table value) (poolBase table turn value false)
      none false value
  | some a =>
    if a.value == value then
      combosCore (equalitiesBase table value ++ [TableItem.card a])
        (poolBase table turn value true) (some a) true value
    else if a.value < value then
      combosCore (equalitiesBase table value)
        (poolBase table turn value true ++ [TableItem.card a]) (some a) false value
    else []

/-- `[c.value for c in cards if c != card]`. -/
def otherCardValues (hand : List Card) (card : Card) : List Nat :=
  (hand.filter (fun c => !(Card.sameId c card))).map Card.value

/-- The lock-out test of `get_valid_actions` (sweep_game.py lines 175-180):
a pile exists at the card's value, the mover created it, and no other hand
card shares the value. -/
def lockedOut (g : GameState) (card : Card) (otherValues : List Nat) : Bool :=
  match alistLookup g.piles card.value with
  | some p => p.creators.contains g.turn && !otherValues.contains card.value
  | none => false

/-- The PileOn actions generated for one hand card at one target value `v`
(sweep_game.py lines 183-194). -/
def pileOnsFor (g : GameState) (otherValues : List Nat) (card : Card) (v : Nat) :
    List Action :=
  if otherValues.contains v then
    (number_combinations g.table g.turn v (some card)).map
      (fun c => Action.mk .pileOn card v (removeCardFromItems c card))
  else []

/-- Whether the PileOn search at `v` suppresses the Throw for this card
(sweep_game.py lines 186-191): combinations exist and the mover owns the
pile at `v`. -/
def pileOnBlocksThrow (g : GameState) (otherValues : List Nat) (card : Card)
    (v : Nat) : Bool :=
  otherValues.contains v &&
  !(number_combinations g.table g.turn v (some card)).isEmpty &&
  (match alistLookup g.piles v with
   | some p => p.creators.contains g.turn
   | none => false)

/-- The actions `get_valid_actions` emits for a single hand card, in
source order: PickUps, then (unless locked out) PileOns for targets 9..13,
then the Throw when nothing suppressed it. -/
def actionsForCard (g : GameState) (hand : List Card) (card : Card) : List Action :=
  if lockedOut g card (otherCardValues hand card) then
    (number_combinations g.table g.turn card.value none).map
      (fun c => Action.mk .pickUp card card.value c)
  else
    (number_combinations g.table g.turn card.value none).map
      (fun c => Action.mk .pickUp card card.value c) ++
    [9, 10, 11, 12, 13].flatMap (pileOnsFor g (otherCardValues hand card) card) ++
    (if (number_combinations g.table g.turn card.value none).isEmpty &&
        !([9, 10, 11, 12, 13].any
          (pileOnBlocksThrow g (otherCardValues hand card) card)) then
      [Action.mk .throw card card.value []]
     else [])

/-- `SweepGame.get_valid_actions` (sweep_game.py lines 160-211). -/
def get_valid_actions (g : GameState) : List Action :=
  g.mover.hand.flatMap (actionsForCard g g.mover.hand)

/-- The cards a consumed table item contributes: a bare card itself, a
pile all of its cards. -/
def expandItem : TableItem → List Card
  | .card c => [c]
  | .pile p => p.cards

/-- All cards contributed by a list of consumed items, in consumption
order. -/
def expandItems (l : List TableItem) : List Card := l.flatMap expandItem

/-- The consumption loop shared by `PickUpAction.execute` and
`PileOnAction.execute` (src/actions.py lines 24-31 and 60-69): for each
item, delete its pile-index entry when it is a pile, then remove it from
the table; on a same-value pile the PileOn loop also inherits the creator
set (the `vTarget` argument; `none` for PickUp). -/
def consumeItems (items : List TableItem) (piles : List (Nat × Pile))
    (table : List TableItem) (creators : List Nat) (vTarget : Option Nat) :
    Option (List (Nat × Pile) × List TableItem × List Nat) :=
  match items with
  | [] => some (piles, table, creators)
  | x :: rest => do
    let st ← match x with
      | .pile p => do
          let pl ← alistErase piles p.value
          some (pl, if vTarget = some p.value then p.creators else creators)
      | .card _ => some (piles, creators)
    let table' ← removeItem table x
    consumeItems rest st.1 table' st.2 vTarget

/-- `set.add` for creator sets of player indices. -/
def addCreator (l : List Nat) (t : Nat) : List Nat :=
  if l.contains t then l else l ++ [t]

/-- `PickUpAction.execute` (src/actions.py lines 19-45): remove the played
card from the mover's hand, consume the listed items, credit the picked-up
cards and their points, count a sweep when the table empties while cards
remain in play, and record the mover as last to pick up. -/
def PickUpAction.execute (g : GameState) (a : Action) : Option GameState := do
  let hand' ← removeCard g.mover.hand a.playedCard
  let st ← consumeItems a.otherItems g.piles g.table [] none
  let pickedUp := a.playedCard :: expandItems a.otherItems
  let gained := (pickedUp.map Card.points).sum
  let table' := st.2.1
  let mv := g.mover
  let sweepNow := table'.isEmpty &&
    (!g.deck.isEmpty || !hand'.isEmpty || !g.otherPlayer.hand.isEmpty)
  let mv' := { mv with
               hand := hand',
               captured := mv.captured ++ pickedUp,
               points := mv.points + gained,
               sweeps := if sweepNow then mv.sweeps + 1 else mv.sweeps }
  some { g.setMover mv' with
         piles := st.1,
         table := table',
         lastToPickUp := some g.turn }

/-- `PileOnAction.execute` (src/actions.py lines 54-74): remove the played
card from the hand, consume the listed items inheriting the creator set of
a same-value pile, add the mover to the creators, build the new pile (the
constructor may fail) and install it on the table and in the index. -/
def PileOnAction.execute (g : GameState) (a : Action) : Option GameState := do
  let hand' ← removeCard g.mover.hand a.playedCard
  let st ← consumeItems a.otherItems g.piles g.table [] (some a.value)
  let creators := addCreator st.2.2 g.turn
  let newPile ← mkPile creators (a.playedCard :: expandItems a.otherItems) a.value
  let mv' := { g.mover with hand := hand' }
  some { g.setMover mv' with
         piles := alistInsert st.1 a.value newPile,
         table := st.2.1 ++ [TableItem.pile newPile] }

/-- `ThrowAction.execute` (src/actions.py lines 81-83). -/
def ThrowAction.execute (g : GameState) (a : Action) : Option GameState := do
  let hand' ← removeCard g.mover.hand a.playedCard
  some { g.setMover { g.mover with hand := hand' } with
         table := g.table ++ [TableItem.card a.playedCard] }

/-- Dispatch of `action.execute(game)` on the action's kind. -/
def executeAction (g : GameState) (a : Action) : Option GameState :=
  match a.actionType with
  | .pickUp => PickUpAction.execute g a
  | .pileOn => PileOnAction.execute g a
  | .throw => ThrowAction.execute g a

/-- The fresh 52-card deck, suit-major as built in the source
(`for suit in SUITS for rank in RANKS`), with points still 0. -/
def freshDeck : List Card :=
  (List.range 4).flatMap (fun s => (List.range 13).map (fun r => ⟨r + 1, s, 0⟩))

/-- The per-round point assignment (sweep_game.py lines 52-57): spades and
aces score their value, the ten of diamonds scores 2, everything else 0. -/
def assignPoints (c : Card) : Card :=
  if c.suit == 0 || c.value == 1 then { c with points := c.value }
  else if c.value == 10 && c.suit == 2 then { c with points := 2 }
  else c

/-- A player's per-round reset in `initialize_round`. -/
def resetPlayer (p : Player) : Player :=
  { p with hand := [], captured := [], sweeps := 0, points := 0 }

/-- `SweepGame.initialize_round` (sweep_game.py lines 31-57): fresh deck
with points assigned, cleared table/piles/last-picker, round counter
bumped, the next opener chosen from the carried point differential
(negative picks player 1, positive player 0, zero keeps the turn), and
both players reset. -/
def initialize_round (g : GameState) : GameState :=
  { g with
    deck := freshDeck.map assignPoints, table := [], round := g.round + 1,
    piles := [], lastToPickUp := none,
    turn := if g.pointDifferential < 0 then 1
            else if 0 < g.pointDifferential then 0
            else g.turn,
    player0 := resetPlayer g.player0, player1 := resetPlayer g.player1 }

/-- The leftover table read as bare cards; `none` when a pile is still on
the table (reading `card.points` on a `Pile` raises in the source). -/
def tableAsCards : List TableItem → Option (List Card)
  | [] => some []
  | .card c :: rest => (tableAsCards rest).map (c :: ·)
  | .pile _ :: _ => none

/-- Update the player at index `i` (0 or 1, as in the source). -/
def updatePlayerAt (g : GameState) (i : Nat) (f : Player → Player) : GameState :=
  if i = 0 then { g with player0 := f g.player0 } else { g with player1 := f g.player1 }

/-- A player's round total: points plus 50 per sweep (sweep_game.py lines
311-314). -/
def roundTotal (p : Player) : Nat := p.points + 50 * p.sweeps

/-- Rank of an action kind in the ordering the specification asserts:
PickUp, then PileOn, then Throw. -/
def kindRank : ActionType → Nat
  | .pickUp => 0
  | .pileOn => 1
  | .throw => 2

/-- The leftover-card step of `end_round` (sweep_game.py lines 291-298):
when the table is non-empty its cards and points go to the last picker;
`none` models the crash when there is no last picker or a pile is left on
the table. -/
def endRoundLeftover (g : GameState) : Option GameState :=
  if g.table.isEmpty then some g
  else
    (tableAsCards g.table).bind (fun cs =>
      g.lastToPickUp.map (fun i =>
        updatePlayerAt g i (fun p =>
          { p with points := p.points + (cs.map Card.points).sum,
                   captured := p.captured ++ cs })))

/-- The card-majority bonus and differential update of `end_round`
(sweep_game.py lines 300-326). -/
def endRoundScore (g1 : GameState) : GameState :=
  let g2 :=
    if 26 < g1.player0.captured.length then
      { g1 with player0 := { g1.player0 with points := g1.player0.points + 4 } }
    else if 26 < g1.player1.captured.length then
      { g1 with player1 := { g1.player1 with points := g1.player1.points + 4 } }
    else
      { g1 with player0 := { g1.player0 with points := g1.player0.points + 2 },
                player1 := { g1.player1 with points := g1.player1.points + 2 } }
  { g2 with pointDifferential := g2.pointDifferential +
    ((roundTotal g2.player0 : Int) - (roundTotal g2.player1 : Int)) }

/-- `SweepGame.end_round` (sweep_game.py lines 289-326): leftover table
cards and points go to the last picker, the card-majority bonus is
applied, and the signed difference of the round totals is added to the
carried point differential. -/
def end_round (g : GameState) : Option GameState :=
  (endRoundLeftover g).map endRoundScore

/-! Derived views of the combination search, used to state its
properties: the equalities list, candidate pool and exact-sum group list
that `number_combinations` actually works with for a given call. -/

/-- The table together with the addition card, when one is supplied. -/
def tableWithAddition (table : List TableItem) (add : Option Card) : List TableItem :=
  match add with
  | some a => table ++ [TableItem.card a]
  | none => table

/-- Whether the addition card is treated as an equality
(`addition_is_equal` in the source). -/
def additionIsEqual (v : Nat) (add : Option Card) : Bool :=
  match add with
  | some a => a.value == v
  | none => false

/-- The full equalities list of a `number_combinations` call, with the
equal-valued addition appended. -/
def equalitiesOf (table : List TableItem) (v : Nat) (add : Option Card) :
    List TableItem :=
  match add with
  | some a =>
    if a.value == v then equalitiesBase table v ++ [TableItem.card a]
    else equalitiesBase table v
  | none => equalitiesBase table v

/-- The full candidate pool of a `number_combinations` call, with a
strictly-lower addition appended. -/
def poolOf (table : List TableItem) (turn : Nat) (v : Nat) (add : Option Card) :
    List TableItem :=
  match add with
  | some a =>
    if a.value == v then poolBase table turn v true
    else if a.value < v then poolBase table turn v true ++ [TableItem.card a]
    else poolBase table turn v true
  | none => poolBase table turn v false

/-- The exact-sum group list (`target_value_combos`) of a
`number_combinations` call. -/
def groupsOf (table : List TableItem) (turn : Nat) (v : Nat) (add : Option Card) :
    List (List TableItem) :=
  exactGroups (sortByValue (poolOf table turn v add)) v

/-- Greedy left-to-right choice of pairwise-disjoint groups: keep a group
when none of its items was already used.  Its result is a maximal valid
selection, used to show the source's fallback branch can only fire when
no exact-sum group exists at all. -/
def greedy : List (List TableItem) → List TableItem → List (List TableItem)
  | [], _ => []
  | gp :: rest, used =>
    if gp.all (fun it => !(itemMem it used)) then gp :: greedy rest (used ++ gp)
    else greedy rest used

/-! State well-formedness and card accounting, used to state the
execution invariants. -/

/-- The card identities a table item carries: a bare card its own, a pile
those of all its cards. -/
def itemIds : TableItem → List (Nat × Nat)
  | .card c => [cardId c]
  | .pile p => p.cards.map cardId

/-- All card identities on a table, piles included. -/
def tableIds (t : List TableItem) : List (Nat × Nat) := t.flatMap itemIds

/-- Every card identity in a game state: both hands, both captured sets
and the table (deck cards never move during an action and are omitted). -/
def stateIds (g : GameState) : List (Nat × Nat) :=
  g.player0.hand.map cardId ++ g.player0.captured.map cardId ++
  g.player1.hand.map cardId ++ g.player1.captured.map cardId ++
  tableIds g.table

/-- The invariants `Pile.__init__` establishes for every pile that can
exist: a positive declared value dividing the card sum, at least one card,
and an undoubled pile's cards summing to exactly its value. -/
def pileWF (p : Pile) : Prop :=
  0 < p.value ∧ p.cards ≠ [] ∧ (p.cards.map Card.value).sum % p.value = 0 ∧
  (p.doubled = false → (p.cards.map Card.value).sum = p.value)

/-- The pile index and the table agree: every index entry is keyed by its
pile's value and that pile sits on the table, and every pile on the table
is indexed under its value. -/
def pilesAgree (g : GameState) : Prop :=
  (∀ pr ∈ g.piles, pr.1 = pr.2.value ∧ TableItem.pile pr.2 ∈ g.table) ∧
  (∀ p : Pile, TableItem.pile p ∈ g.table →
    alistLookup g.piles p.value = some p)

/-- A well-formed game state: a valid mover index, globally distinct card
identities, the pile index and the table agreeing, distinct index keys,
and every table pile satisfying the constructor invariants. -/
def StateWF (g : GameState) : Prop :=
  g.turn < 2 ∧
  (stateIds g).Nodup ∧
  pilesAgree g ∧
  (g.piles.map Prod.fst).Nodup ∧
  (∀ p : Pile, TableItem.pile p ∈ g.table → pileWF p)

/-- The state `PickUpAction.execute` builds once the hand removal and the
consumption loop have succeeded. -/
def pickUpResult (g : GameState) (a : Action) (hand' : List Card)
    (piles' : List (Nat × Pile)) (table' : List TableItem) : GameState :=
  { g.setMover
      { g.mover with
        hand := hand',
        captured := g.mover.captured ++ (a.playedCard :: expandItems a.otherItems),
        points := g.mover.points +
          ((a.playedCard :: expandItems a.otherItems).map Card.points).sum,
        sweeps := if table'.isEmpty &&
            (!g.deck.isEmpty || !hand'.isEmpty || !g.otherPlayer.hand.isEmpty) then
          g.mover.sweeps + 1
         else g.mover.sweeps } with
    piles := piles',
    table := table',
    lastToPickUp := some g.turn }

/-- The state `PileOnAction.execute` builds once the hand removal, the
consumption loop and the pile constructor have succeeded. -/
def pileOnResult (g : GameState) (a : Action) (hand' : List Card)
    (piles' : List (Nat × Pile)) (table' : List TableItem) (np : Pile) :
    GameState :=
  { g.setMover { g.mover with hand := hand' } with
    piles := alistInsert piles' a.value np,
    table := table' ++ [TableItem.pile np] }

/-- The state `ThrowAction.execute` builds once the hand removal has
succeeded. -/
def throwResult (g : GameState) (a : Action) (hand' : List Card) : GameState :=
  { g.setMover { g.mover with hand := hand' } with
    table := g.table ++ [TableItem.card a.playedCard] }

/-! Concrete fixtures used by counterexamples and witnesses. -/

/-- The two of hearts. -/
def c2h : Card := ⟨2, 1, 0⟩

/-- The seven of spades (worth 7 points). -/
def c7s : Card := ⟨7, 0, 7⟩

/-- The nine of hearts. -/
def c9h : Card := ⟨9, 1, 0⟩

/-- The nine of diamonds. -/
def c9d : Card := ⟨9, 2, 0⟩

/-- The nine of spades (worth 9 points). -/
def c9s : Card := ⟨9, 0, 9⟩

/-- The two of spades (worth 2 points). -/
def c2s : Card := ⟨2, 0, 2⟩

/-- The seven of hearts. -/
def c7h : Card := ⟨7, 1, 0⟩

/-- The sample state of the specification's first scenario: table
2♥, 7♠, 9♥, 9♦ (all bare), mover's hand just 9♠. -/
def gC1 : GameState :=
  { deck := [], table := [.card c2h, .card c7s, .card c9h, .card c9d],
    player0 := ⟨[c9s], [], 0, 0⟩, player1 := ⟨[], [], 0, 0⟩,
    piles := [], lastToPickUp := none, pointDifferential := 0, round := 1,
    turn := 0 }

/-- A state whose action list interleaves kinds across hand cards: table
7♥, 9♥, hand 2♠ and 9♠. -/
def gC8 : GameState :=
  { deck := [], table := [.card c7h, .card c9h],
    player0 := ⟨[c2s, c9s], [], 0, 0⟩, player1 := ⟨[], [], 0, 0⟩,
    piles := [], lastToPickUp := none, pointDifferential := 0, round := 1,
    turn := 0 }

/-- An end-of-round state: empty table, player 1 ahead by ten points. -/
def gC3 : GameState :=
  { deck := [], table := [],
    player0 := ⟨[], [], 0, 0⟩, player1 := ⟨[], [], 0, 10⟩,
    piles := [], lastToPickUp := none, pointDifferential := 0, round := 1,
    turn := 0 }

/-- The state `end_round` produces from `gC3`. -/
def gC3res : GameState :=
  { deck := [], table := [],
    player0 := ⟨[], [], 0, 2⟩, player1 := ⟨[], [], 0, 12⟩,
    piles := [], lastToPickUp := none, pointDifferential := -10, round := 1,
    turn := 0 }

/-- A pile of 9 (4♥ + 5♥) created by player 0. -/
def pC9 : Pile := ⟨[0], [⟨4, 1, 0⟩, ⟨5, 1, 0⟩], 9, false⟩

/-- A state where player 0 holds only the 9♠ and owns the pile of 9. -/
def gC9 : GameState :=
  { deck := [], table := [.pile pC9],
    player0 := ⟨[c9s], [], 0, 0⟩, player1 := ⟨[], [], 0, 0⟩,
    piles := [(9, pC9)], lastToPickUp := none, pointDifferential := 0,
    round := 1, turn := 0 }

/-- A single-capture state for exercising `PickUpAction.execute`: the
mover holds the 9♠ and the table holds only the 9♥. -/
def gC7 : GameState :=
  { deck := [], table := [.card c9h],
    player0 := ⟨[c9s], [], 0, 0⟩, player1 := ⟨[], [], 0, 0⟩,
    piles := [], lastToPickUp := none, pointDifferential := 0, round := 1,
    turn := 0 }

/-- The PickUp of the 9♠ taking the 9♥ in `gC7`. -/
def aC7 : Action := ⟨.pickUp, c9s, 9, [.card c9h]⟩

/-- The state `PickUpAction.execute` produces from `gC7` and `aC7`: no
sweep, since no cards remain anywhere. -/
def gC7res : GameState :=
  { deck := [], table := [],
    player0 := ⟨[], [c9s, c9h], 0, 9⟩, player1 := ⟨[], [], 0, 0⟩,
    piles := [], lastToPickUp := some 0, pointDifferential := 0, round := 1,
    turn := 0 }

/-! Theorems.  First, helper lemmas about the embedding's basic
operations; the claim theorems follow. -/

theorem itemEq_refl (x : TableItem) : itemEq x x = true := by
  cases x <;> simp [itemEq, Card.sameId]

theorem itemEq_symm {x y : TableItem} (h : itemEq x y = true) : itemEq y x = true := by
  cases x <;> cases y <;> simp [itemEq, Card.sameId] at h ⊢
  · exact ⟨h.1.symm, h.2.symm⟩
  · exact h.symm

theorem itemEq_value {x y : TableItem} (h : itemEq x y = true) : x.value = y.value := by
  cases x <;> cases y <;> simp [itemEq, Card.sameId] at h
  · simp [TableItem.value, h.1]
  · simp [TableItem.value, h]

theorem itemMem_iff {x : TableItem} {l : List TableItem} :
    itemMem x l = true ↔ ∃ y ∈ l, itemEq x y = true := by
  simp [itemMem, List.any_eq_true]

theorem itemMem_append {x : TableItem} {a b : List TableItem} :
    itemMem x (a ++ b) = (itemMem x a || itemMem x b) := by
  simp [itemMem, List.any_append]

theorem groupEq_refl (g : List TableItem) : groupEq g g = true := by
  induction g with
  | nil => simp [groupEq]
  | cons x xs ih =>
    simp [groupEq, itemEq_refl] at ih ⊢
    exact ih

theorem allDistinctItems_append {a b : List TableItem} :
    allDistinctItems (a ++ b) =
      (allDistinctItems a && allDistinctItems b && a.all (fun x => !(itemMem x b))) := by
  induction a with
  | nil => simp [allDistinctItems]
  | cons x xs ih =>
    simp [allDistinctItems, ih, itemMem_append]
    cases itemMem x xs <;> cases itemMem x b <;>
      cases allDistinctItems xs <;> cases allDistinctItems b <;> simp

theorem allDistinctItems_pairwise {l : List TableItem} :
    allDistinctItems l = true ↔ l.Pairwise (fun x y => itemEq x y = false) := by
  induction l with
  | nil => simp [allDistinctItems]
  | cons x xs ih =>
    unfold allDistinctItems
    rw [Bool.and_eq_true, List.pairwise_cons, ← ih]
    constructor
    · rintro ⟨hm, hd⟩
      refine ⟨?_, hd⟩
      intro y hy
      rcases h1 : itemEq x y with _ | _
      · rfl
      · rw [itemMem_iff.mpr ⟨y, hy, h1⟩] at hm
        cases hm
    · rintro ⟨hy, hd⟩
      refine ⟨?_, hd⟩
      rcases hm : itemMem x xs with _ | _
      · rfl
      · obtain ⟨y, hy2, he⟩ := itemMem_iff.mp hm
        rw [hy y hy2] at he
        cases he

theorem allDistinctItems_sublist {a b : List TableItem} (hs : a.Sublist b)
    (h : allDistinctItems b = true) : allDistinctItems a = true := by
  rw [allDistinctItems_pairwise] at h ⊢
  exact h.sublist hs

theorem allDistinctItems_perm {a b : List TableItem} (hp : a.Perm b) :
    allDistinctItems a = allDistinctItems b := by
  have hsymm : ∀ x y : TableItem, itemEq x y = false → itemEq y x = false := by
    intro x y h
    rcases h1 : itemEq y x with _ | _
    · rfl
    · rw [← h, itemEq_symm h1]
  have hiff : a.Pairwise (fun x y : TableItem => itemEq x y = false) ↔
      b.Pairwise (fun x y : TableItem => itemEq x y = false) :=
    hp.pairwise_iff (fun {x y} h => hsymm x y h)
  rcases ha : allDistinctItems a with _ | _ <;> rcases hb : allDistinctItems b with _ | _
  · rfl
  · rw [allDistinctItems_pairwise] at hb
    have := hiff.mpr hb
    rw [← allDistinctItems_pairwise] at this
    rw [ha] at this
    cases this
  · rw [allDistinctItems_pairwise] at ha
    have := hiff.mp ha
    rw [← allDistinctItems_pairwise] at this
    rw [hb] at this
    cases this
  · rfl

theorem mem_combinations {α : Type} :
    ∀ {n : Nat} {xs l : List α}, l ∈ combinations n xs ↔ l.Sublist xs ∧ l.length = n := by
  intro n xs
  induction xs generalizing n with
  | nil =>
    intro l
    cases n with
    | zero => simp [combinations, List.sublist_nil]
    | succ n =>
      constructor
      · intro h
        simp [combinations] at h
      · rintro ⟨hs, hl⟩
        rw [List.sublist_nil] at hs
        subst hs
        simp at hl
  | cons x xs ih =>
    intro l
    cases n with
    | zero =>
      constructor
      · intro h
        simp [combinations] at h
        simp [h, List.nil_sublist]
      · rintro ⟨hs, hl⟩
        rw [List.length_eq_zero] at hl
        simp [combinations, hl]
    | succ n =>
      simp only [combinations, List.mem_append, List.mem_map]
      constructor
      · rintro (⟨t, ht, rfl⟩ | h)
        · rw [ih] at ht
          exact ⟨ht.1.cons₂ x, by simp [ht.2]⟩
        · rw [ih] at h
          exact ⟨h.1.cons x, h.2⟩
      · rintro ⟨hs, hl⟩
        cases hs with
        | cons _ h => exact Or.inr (ih.mpr ⟨h, hl⟩)
        | cons₂ _ h =>
          exact Or.inl ⟨_, ih.mpr ⟨h, by simpa using hl⟩, rfl⟩

theorem mem_allNonemptySubs {α : Type} {xs l : List α} :
    l ∈ allNonemptySubs xs ↔ l.Sublist xs ∧ l ≠ [] := by
  simp only [allNonemptySubs, List.mem_flatMap, List.mem_range, mem_combinations]
  constructor
  · rintro ⟨r, hr, hs, hl⟩
    refine ⟨hs, ?_⟩
    intro hnil
    rw [hnil] at hl
    simp at hl
  · rintro ⟨hs, hne⟩
    have hpos : 0 < l.length := List.length_pos.mpr hne
    refine ⟨l.length - 1, ?_, hs, by omega⟩
    have := hs.length_le
    omega

theorem insertByValue_perm (x : TableItem) (l : List TableItem) :
    (insertByValue x l).Perm (x :: l) := by
  induction l with
  | nil => simp [insertByValue]
  | cons y ys ih =>
    unfold insertByValue
    split
    · exact (ih.cons y).trans (List.Perm.swap x y ys)
    · exact List.Perm.refl _

theorem sortByValue_perm (l : List TableItem) : (sortByValue l).Perm l := by
  induction l with
  | nil => simp [sortByValue]
  | cons x xs ih =>
    exact (insertByValue_perm x (sortByValue xs)).trans (ih.cons x)

theorem exactGroups_mem {pool : List TableItem} {v : Nat} {gp : List TableItem}
    (h : gp ∈ exactGroups pool v) :
    gp.Sublist pool ∧ gp ≠ [] ∧ sumValues gp = v := by
  unfold exactGroups at h
  rw [List.mem_filter] at h
  rw [mem_allNonemptySubs] at h
  refine ⟨h.1.1, h.1.2, by simpa using h.2⟩

theorem greedy_sublist (tvc : List (List TableItem)) (used : List TableItem) :
    (greedy tvc used).Sublist tvc := by
  induction tvc generalizing used with
  | nil => simp [greedy]
  | cons gp rest ih =>
    unfold greedy
    split
    · exact (ih _).cons₂ gp
    · exact (ih _).cons gp

theorem greedy_ne_nil {tvc : List (List TableItem)} (h : tvc ≠ []) :
    greedy tvc [] ≠ [] := by
  cases tvc with
  | nil => exact absurd rfl h
  | cons gp rest =>
    unfold greedy
    rw [if_pos (by simp [itemMem])]
    simp

theorem greedy_fresh (tvc : List (List TableItem)) (used : List TableItem)
    (hg : ∀ gp ∈ tvc, allDistinctItems gp = true) :
    allDistinctItems ((greedy tvc used).flatten) = true ∧
    ∀ it ∈ (greedy tvc used).flatten, itemMem it used = false := by
  induction tvc generalizing used with
  | nil => simp [greedy, allDistinctItems]
  | cons gp rest ih =>
    unfold greedy
    by_cases hc : gp.all (fun it => !(itemMem it used)) = true
    · rw [if_pos hc]
      have ihr := ih (used ++ gp) (fun g hgm => hg g (List.mem_cons_of_mem _ hgm))
      have hgpfresh : ∀ it ∈ gp, itemMem it used = false := by
        intro it hit
        have := List.all_eq_true.mp hc it hit
        simpa using this
      have hcross : ∀ x ∈ gp, itemMem x ((greedy rest (used ++ gp)).flatten) = false := by
        intro x hx
        rcases hm : itemMem x ((greedy rest (used ++ gp)).flatten) with _ | _
        · rfl
        · obtain ⟨y, hy, he⟩ := itemMem_iff.mp hm
          have hyfresh := ihr.2 y hy
          rw [itemMem_append] at hyfresh
          have : itemMem y gp = false := by
            rcases h1 : itemMem y gp with _ | _
            · rfl
            · rw [h1] at hyfresh
              simp at hyfresh
          rw [itemMem_iff.mpr ⟨x, hx, itemEq_symm he⟩] at this
          cases this
      constructor
      · rw [List.flatten_cons, allDistinctItems_append]
        rw [hg gp (List.mem_cons_self _ _), ihr.1]
        simp only [Bool.true_and]
        rw [List.all_eq_true]
        intro x hx
        rw [hcross x hx]
        rfl
      · intro it hit
        rw [List.flatten_cons, List.mem_append] at hit
        rcases hit with hit | hit
        · exact hgpfresh it hit
        · have := ihr.2 it hit
          rw [itemMem_append] at this
          rcases h1 : itemMem it used with _ | _
          · rfl
          · rw [h1] at this
            simp at this
    · rw [if_neg hc]
      exact ih used (fun g hgm => hg g (List.mem_cons_of_mem _ hgm))

theorem greedy_cover (tvc : List (List TableItem)) (used : List TableItem) :
    ∀ uc ∈ tvc,
      (greedy tvc used).any (groupEq uc) = true ∨
      uc.any (fun it => itemMem it (used ++ (greedy tvc used).flatten)) = true := by
  induction tvc generalizing used with
  | nil =>
    intro uc h
    cases h
  | cons gp rest ih =>
    intro uc huc
    unfold greedy
    by_cases hc : gp.all (fun it => !(itemMem it used)) = true
    · rw [if_pos hc]
      rcases List.mem_cons.mp huc with rfl | hmem
      · left
        simp [List.any_cons, groupEq_refl]
      · rcases ih (used ++ gp) uc hmem with h1 | h2
        · left
          simp [List.any_cons, h1]
        · right
          rw [List.flatten_cons, ← List.append_assoc]
          exact h2
    · rw [if_neg hc]
      rcases List.mem_cons.mp huc with rfl | hmem
      · right
        rw [List.all_eq_true] at hc
        push_neg at hc
        obtain ⟨it, hit, hne⟩ := hc
        have hmemu : itemMem it used = true := by
          rcases h1 : itemMem it used with _ | _
          · rw [h1] at hne
            simp at hne
          · rfl
        rw [List.any_eq_true]
        refine ⟨it, hit, ?_⟩
        rw [itemMem_append, hmemu]
        rfl
      · rcases ih used uc hmem with h1 | h2
        · left
          exact h1
        · right
          exact h2

theorem exists_valid_selection {tvc : List (List TableItem)} {add : Option Card}
    {aie : Bool} (hne : tvc ≠ [])
    (hg : ∀ gp ∈ tvc, allDistinctItems gp = true)
    (hadd : add = none ∨ aie = true) :
    ∃ sel, sel ∈ allNonemptySubs tvc ∧ selectionValid tvc sel add aie = true := by
  refine ⟨greedy tvc [],
    mem_allNonemptySubs.mpr ⟨greedy_sublist tvc [], greedy_ne_nil hne⟩, ?_⟩
  unfold selectionValid
  rw [Bool.and_eq_true, Bool.and_eq_true]
  refine ⟨⟨(greedy_fresh tvc [] hg).1, ?_⟩, ?_⟩
  · rcases hadd with rfl | haie
    · rfl
    · cases add with
      | none => rfl
      | some a =>
        rw [haie]
        rfl
  · rw [List.all_eq_true]
    intro uc hucf
    rw [List.mem_filter] at hucf
    rcases greedy_cover tvc [] uc hucf.1 with h1 | h2
    · rw [h1] at hucf
      simp at hucf
    · rw [List.nil_append] at h2
      exact h2

theorem exactGroups_distinct {pool : List TableItem} {v : Nat}
    (hd : allDistinctItems pool = true) :
    ∀ gp ∈ exactGroups (sortByValue pool) v, allDistinctItems gp = true := by
  intro gp hgp
  have hsub := (exactGroups_mem hgp).1
  have hsorted : allDistinctItems (sortByValue pool) = true := by
    rw [allDistinctItems_perm (sortByValue_perm pool)]
    exact hd
  exact allDistinctItems_sublist hsub hsorted

theorem combosCore_mem_inv {eqs pool : List TableItem} {add : Option Card}
    {aie : Bool} {v : Nat} {combo : List TableItem}
    (h : combo ∈ combosCore eqs pool add aie v) :
    (∃ sel, sel ∈ allNonemptySubs (exactGroups (sortByValue pool) v) ∧
        selectionValid (exactGroups (sortByValue pool) v) sel add aie = true ∧
        combo = sel.flatten ++ eqs) ∨
      (combo = eqs ∧
        (add.isNone || (aie && decide (1 < eqs.length))) = true ∧
        ∀ sel ∈ allNonemptySubs (exactGroups (sortByValue pool) v),
          selectionValid (exactGroups (sortByValue pool) v) sel add aie = false) := by
  unfold combosCore at h
  split at h
  · right
    rename_i hcond
    rw [Bool.and_eq_true, Bool.and_eq_true] at hcond
    have hbase := hcond.1.2
    rw [List.isEmpty_iff] at hbase
    unfold combosBase at hbase
    rw [List.mem_singleton] at h
    refine ⟨h, hcond.1.1, ?_⟩
    intro sel hsel
    have := List.filterMap_eq_nil_iff.mp hbase sel hsel
    rcases hval : selectionValid (exactGroups (sortByValue pool) v) sel add aie
      with _ | _
    · rfl
    · rw [hval] at this
      simp at this
  · left
    unfold combosBase at h
    rw [List.mem_filterMap] at h
    obtain ⟨sel, hsel, hif⟩ := h
    rcases hval : selectionValid (exactGroups (sortByValue pool) v) sel add aie
      with _ | _
    · rw [hval] at hif
      simp at hif
    · rw [hval] at hif
      simp at hif
      exact ⟨sel, hsel, hval, hif.symm⟩

theorem groups_nil_of_no_valid {tvc : List (List TableItem)} {add : Option Card}
    {aie : Bool} (hg : ∀ gp ∈ tvc, allDistinctItems gp = true)
    (hadd : add = none ∨ aie = true)
    (hno : ∀ sel ∈ allNonemptySubs tvc, selectionValid tvc sel add aie = false) :
    tvc = [] := by
  by_contra hne
  obtain ⟨sel, hmem, hval⟩ := exists_valid_selection hne hg hadd
  rw [hno sel hmem] at hval
  cases hval

theorem selectionValid_iff {tvc sel : List (List TableItem)} {add : Option Card}
    {aie : Bool} :
    selectionValid tvc sel add aie = true ↔
      allDistinctItems sel.flatten = true ∧
      (∀ a, add = some a → aie = true ∨ itemsContainCard sel.flatten a = true) ∧
      ∀ uc ∈ tvc, sel.any (groupEq uc) = false →
        uc.any (fun it => itemMem it sel.flatten) = true := by
  unfold selectionValid
  rw [Bool.and_eq_true, Bool.and_eq_true, List.all_eq_true]
  constructor
  · rintro ⟨⟨hd, hm⟩, hmax⟩
    refine ⟨hd, ?_, ?_⟩
    · rintro a rfl
      rcases haie : aie with _ | _
      · right
        rw [haie] at hm
        simpa using hm
      · exact Or.inl rfl
    · intro uc huc hnotsel
      exact hmax uc (List.mem_filter.mpr ⟨huc, by rw [hnotsel]; rfl⟩)
  · rintro ⟨hd, hm, hmax⟩
    refine ⟨⟨hd, ?_⟩, ?_⟩
    · cases add with
      | none => rfl
      | some a =>
        show (aie || itemsContainCard sel.flatten a) = true
        rcases hm a rfl with h | h
        · rw [h]
          rfl
        · rw [h]
          simp
    · intro uc hucf
      rw [List.mem_filter] at hucf
      refine hmax uc hucf.1 ?_
      have := hucf.2
      rcases h1 : sel.any (groupEq uc) with _ | _
      · rfl
      · rw [h1] at this
        cases this

theorem mem_equalitiesBase {table : List TableItem} {v : Nat} {x : TableItem} :
    x ∈ equalitiesBase table v ↔ x ∈ table ∧ x.value = v := by
  simp [equalitiesBase, List.mem_filter]

theorem card_mem_poolBase {table : List TableItem} {turn v : Nat} {b : Bool}
    {c : Card} :
    TableItem.card c ∈ poolBase table turn v b ↔
      TableItem.card c ∈ table ∧ c.value < v := by
  simp [poolBase, List.mem_filter, TableItem.isPileB, TableItem.value]

theorem pile_mem_poolBase {table : List TableItem} {turn v : Nat} {b : Bool}
    {p : Pile} :
    TableItem.pile p ∈ poolBase table turn v b ↔
      TableItem.pile p ∈ table ∧ p.value < v ∧ b = true ∧ p.doubled = false ∧
        p.creators.contains turn = false := by
  simp [poolBase, List.mem_filter, TableItem.isPileB, TableItem.value,
    TableItem.doubledB, TableItem.creatorsContain]
  intro _
  cases b <;> cases p.doubled <;> cases p.creators.contains turn <;> simp

theorem mem_poolBase_value_lt {table : List TableItem} {turn v : Nat} {b : Bool}
    {x : TableItem} (h : x ∈ poolBase table turn v b) : x ∈ table ∧ x.value < v := by
  rw [poolBase, List.mem_filter] at h
  refine ⟨h.1, ?_⟩
  have := h.2
  rw [Bool.and_eq_true] at this
  simpa using this.1

theorem poolOf_value_lt {table : List TableItem} {turn v : Nat} {add : Option Card}
    {x : TableItem} (h : x ∈ poolOf table turn v add) : x.value < v := by
  cases add with
  | none =>
    simp only [poolOf] at h
    exact (mem_poolBase_value_lt h).2
  | some a =>
    simp only [poolOf] at h
    by_cases h1 : a.value == v
    · rw [if_pos h1] at h
      exact (mem_poolBase_value_lt h).2
    · rw [if_neg h1] at h
      by_cases h2 : a.value < v
      · rw [if_pos h2] at h
        rw [List.mem_append] at h
        rcases h with h | h
        · exact (mem_poolBase_value_lt h).2
        · rw [List.mem_singleton] at h
          rw [h]
          exact h2
      · rw [if_neg h2] at h
        exact (mem_poolBase_value_lt h).2

theorem poolOf_mem_tableWithAddition {table : List TableItem} {turn v : Nat}
    {add : Option Card} {x : TableItem} (h : x ∈ poolOf table turn v add) :
    x ∈ tableWithAddition table add := by
  cases add with
  | none =>
    simp only [poolOf] at h
    simp only [tableWithAddition]
    exact (mem_poolBase_value_lt h).1
  | some a =>
    simp only [poolOf] at h
    simp only [tableWithAddition]
    rw [List.mem_append]
    by_cases h1 : a.value == v
    · rw [if_pos h1] at h
      exact Or.inl (mem_poolBase_value_lt h).1
    · rw [if_neg h1] at h
      by_cases h2 : a.value < v
      · rw [if_pos h2] at h
        rw [List.mem_append] at h
        rcases h with h | h
        · exact Or.inl (mem_poolBase_value_lt h).1
        · exact Or.inr h
      · rw [if_neg h2] at h
        exact Or.inl (mem_poolBase_value_lt h).1

theorem equalitiesOf_value {table : List TableItem} {v : Nat} {add : Option Card}
    {x : TableItem} (h : x ∈ equalitiesOf table v add) : x.value = v := by
  cases add with
  | none =>
    simp only [equalitiesOf] at h
    exact (mem_equalitiesBase.mp h).2
  | some a =>
    simp only [equalitiesOf] at h
    by_cases h1 : a.value == v
    · rw [if_pos h1] at h
      rw [List.mem_append] at h
      rcases h with h | h
      · exact (mem_equalitiesBase.mp h).2
      · rw [List.mem_singleton] at h
        rw [h]
        simpa [TableItem.value] using h1
    · rw [if_neg h1] at h
      exact (mem_equalitiesBase.mp h).2

theorem equalitiesOf_mem_tableWithAddition {table : List TableItem} {v : Nat}
    {add : Option Card} {x : TableItem} (h : x ∈ equalitiesOf table v add) :
    x ∈ tableWithAddition table add := by
  cases add with
  | none =>
    simp only [equalitiesOf] at h
    simp only [tableWithAddition]
    exact (mem_equalitiesBase.mp h).1
  | some a =>
    simp only [equalitiesOf] at h
    simp only [tableWithAddition]
    rw [List.mem_append]
    by_cases h1 : a.value == v
    · rw [if_pos h1] at h
      rw [List.mem_append] at h
      rcases h with h | h
      · exact Or.inl (mem_equalitiesBase.mp h).1
      · exact Or.inr h
    · rw [if_neg h1] at h
      exact Or.inl (mem_equalitiesBase.mp h).1

theorem poolOf_sublist_tableWithAddition {table : List TableItem} {turn v : Nat}
    {add : Option Card} :
    (poolOf table turn v add).Sublist (tableWithAddition table add) := by
  cases add with
  | none =>
    simp only [poolOf, tableWithAddition, poolBase]
    exact List.filter_sublist _
  | some a =>
    simp only [poolOf, tableWithAddition, poolBase]
    by_cases h1 : a.value == v
    · rw [if_pos h1]
      exact (List.filter_sublist _).trans (List.sublist_append_left _ _)
    · rw [if_neg h1]
      by_cases h2 : a.value < v
      · rw [if_pos h2]
        exact (List.filter_sublist _).append (List.Sublist.refl _)
      · rw [if_neg h2]
        exact (List.filter_sublist _).trans (List.sublist_append_left _ _)

theorem equalitiesOf_sublist_tableWithAddition {table : List TableItem} {v : Nat}
    {add : Option Card} :
    (equalitiesOf table v add).Sublist (tableWithAddition table add) := by
  cases add with
  | none =>
    simp only [equalitiesOf, tableWithAddition, equalitiesBase]
    exact List.filter_sublist _
  | some a =>
    simp only [equalitiesOf, tableWithAddition, equalitiesBase]
    by_cases h1 : a.value == v
    · rw [if_pos h1]
      exact (List.filter_sublist _).append (List.Sublist.refl _)
    · rw [if_neg h1]
      exact (List.filter_sublist _).trans (List.sublist_append_left _ _)

theorem number_combinations_mem_inv {table : List TableItem} {turn v : Nat}
    {add : Option Card} {combo : List TableItem}
    (h : combo ∈ number_combinations table turn v add) :
    (∃ sel, sel ∈ allNonemptySubs (groupsOf table turn v add) ∧
        selectionValid (groupsOf table turn v add) sel add
          (additionIsEqual v add) = true ∧
        combo = sel.flatten ++ equalitiesOf table v add) ∨
      (combo = equalitiesOf table v add ∧
        (add.isNone || (additionIsEqual v add &&
          decide (1 < (equalitiesOf table v add).length))) = true ∧
        ∀ sel ∈ allNonemptySubs (groupsOf table turn v add),
          selectionValid (groupsOf table turn v add) sel add
            (additionIsEqual v add) = false) := by
  cases add with
  | none =>
    simp only [number_combinations] at h
    simp only [groupsOf, equalitiesOf, poolOf, additionIsEqual]
    exact combosCore_mem_inv h
  | some a =>
    by_cases h2 : a.value ≤ v
    · have heq : number_combinations table turn v (some a) =
          combosCore (equalitiesOf table v (some a)) (poolOf table turn v (some a))
            (some a) (additionIsEqual v (some a)) v := by
        by_cases h1 : a.value = v
        · simp [number_combinations, equalitiesOf, poolOf, additionIsEqual, h1]
        · have hlt : a.value < v := lt_of_le_of_ne h2 h1
          simp [number_combinations, equalitiesOf, poolOf, additionIsEqual, h1, hlt,
            show (a.value == v) = false by simp [h1]]
      rw [heq] at h
      simp only [groupsOf]
      exact combosCore_mem_inv h
    · have hgt : v < a.value := Nat.lt_of_not_le h2
      have : number_combinations table turn v (some a) = [] := by
        have h1 : ¬ a.value = v := by omega
        have h3 : ¬ a.value < v := by omega
        simp [number_combinations, h1, h3]
      rw [this] at h
      cases h

theorem sameId_refl (c : Card) : Card.sameId c c = true := by
  simp [Card.sameId]

theorem sameId_symm {a b : Card} (h : Card.sameId a b = true) :
    Card.sameId b a = true := by
  simp [Card.sameId] at h ⊢
  exact ⟨h.1.symm, h.2.symm⟩

theorem sameId_value {a b : Card} (h : Card.sameId a b = true) :
    a.value = b.value := by
  simp [Card.sameId] at h
  exact h.1

theorem sameId_congr {c card x : Card} (h : Card.sameId c card = true) :
    Card.sameId x c = Card.sameId x card := by
  simp [Card.sameId] at h ⊢
  rw [h.1, h.2]

theorem sel_flatten_subset_poolOf {table : List TableItem} {turn v : Nat}
    {add : Option Card} {sel : List (List TableItem)}
    (hsel : sel.Sublist (groupsOf table turn v add)) :
    ∀ it ∈ sel.flatten, it ∈ poolOf table turn v add := by
  intro it hit
  rw [List.mem_flatten] at hit
  obtain ⟨gp, hgp, hitgp⟩ := hit
  have hgpg : gp ∈ groupsOf table turn v add := hsel.subset hgp
  simp only [groupsOf] at hgpg
  have hsub := (exactGroups_mem hgpg).1
  have hmem : it ∈ sortByValue (poolOf table turn v add) := hsub.subset hitgp
  exact (sortByValue_perm _).subset hmem

theorem equalitiesOf_of_equal {table : List TableItem} {v : Nat} {a : Card}
    (h : (a.value == v) = true) :
    equalitiesOf table v (some a) = equalitiesBase table v ++ [TableItem.card a] := by
  simp only [equalitiesOf]
  rw [if_pos h]

theorem actionsForCard_playedCard {g : GameState} {hand : List Card} {c : Card}
    {a : Action} (h : a ∈ actionsForCard g hand c) : a.playedCard = c := by
  unfold actionsForCard at h
  split at h
  · rw [List.mem_map] at h
    obtain ⟨_, _, rfl⟩ := h
    rfl
  · rw [List.mem_append, List.mem_append] at h
    rcases h with (h | h) | h
    · rw [List.mem_map] at h
      obtain ⟨_, _, rfl⟩ := h
      rfl
    · rw [List.mem_flatMap] at h
      obtain ⟨vt, _, h⟩ := h
      unfold pileOnsFor at h
      split at h
      · rw [List.mem_map] at h
        obtain ⟨_, _, rfl⟩ := h
        rfl
      · cases h
    · split at h
      · rw [List.mem_singleton] at h
        rw [h]
      · cases h

theorem actionsForCard_locked {g : GameState} {hand : List Card} {c : Card}
    (h : lockedOut g c (otherCardValues hand c) = true) :
    actionsForCard g hand c =
      (number_combinations g.table g.turn c.value none).map
        (fun combo => Action.mk .pickUp c c.value combo) := by
  unfold actionsForCard
  rw [if_pos h]

theorem mem_otherCardValues {hand : List Card} {c : Card} {y : Nat} :
    y ∈ otherCardValues hand c ↔
      ∃ x ∈ hand, Card.sameId x c = false ∧ x.value = y := by
  simp only [otherCardValues, List.mem_map, List.mem_filter]
  constructor
  · rintro ⟨x, ⟨hx, hne⟩, rfl⟩
    exact ⟨x, hx, by simpa using hne, rfl⟩
  · rintro ⟨x, hx, hne, rfl⟩
    exact ⟨x, ⟨hx, by simp [hne]⟩, rfl⟩

/-- C5: in the candidate pool of strictly-lower-value items, a bare card
is always eligible; a pile is eligible exactly when an addition is
supplied, the pile is not doubled, and the mover is not among its
creators.  Consequently, with no addition, no pile of value below the
target appears anywhere in a returned combination. -/
theorem C5_pool_eligibility (table : List TableItem) (turn v : Nat) (b : Bool) :
    (∀ c : Card, TableItem.card c ∈ table → c.value < v →
      TableItem.card c ∈ poolBase table turn v b) ∧
    (∀ p : Pile, TableItem.pile p ∈ table → p.value < v →
      (TableItem.pile p ∈ poolBase table turn v b ↔
        b = true ∧ p.doubled = false ∧ p.creators.contains turn = false)) ∧
    (∀ combo ∈ number_combinations table turn v none, ∀ p : Pile,
      TableItem.pile p ∈ combo → ¬ p.value < v) := by
  refine ⟨?_, ?_, ?_⟩
  · intro c hc hlt
    exact card_mem_poolBase.mpr ⟨hc, hlt⟩
  · intro p hp hlt
    constructor
    · intro hmem
      have := pile_mem_poolBase.mp hmem
      exact ⟨this.2.2.1, this.2.2.2.1, this.2.2.2.2⟩
    · rintro ⟨hb, hd, hcr⟩
      exact pile_mem_poolBase.mpr ⟨hp, hlt, hb, hd, hcr⟩
  · intro combo hcombo p hpmem
    rcases number_combinations_mem_inv hcombo with
      ⟨sel, hsel, _, rfl⟩ | ⟨rfl, _, _⟩
    · rw [List.mem_append] at hpmem
      rcases hpmem with hpmem | hpmem
      · have hpool := sel_flatten_subset_poolOf
          (mem_allNonemptySubs.mp hsel).1 _ hpmem
        simp only [poolOf] at hpool
        have := (pile_mem_poolBase.mp hpool).2.2.1
        cases this
      · have := equalitiesOf_value hpmem
        simp only [TableItem.value] at this
        omega
    · have := equalitiesOf_value hpmem
      simp only [TableItem.value] at this
      omega

/-- C5 witness: the eligibility statement applied to the concrete table of
`gC1` at target 9. -/
theorem C5_witness :
    (∀ c : Card, TableItem.card c ∈ gC1.table → c.value < 9 →
      TableItem.card c ∈ poolBase gC1.table 0 9 true) ∧
    (∀ p : Pile, TableItem.pile p ∈ gC1.table → p.value < 9 →
      (TableItem.pile p ∈ poolBase gC1.table 0 9 true ↔
        true = true ∧ p.doubled = false ∧ p.creators.contains 0 = false)) ∧
    (∀ combo ∈ number_combinations gC1.table 0 9 none, ∀ p : Pile,
      TableItem.pile p ∈ combo → ¬ p.value < 9) :=
  C5_pool_eligibility gC1.table 0 9 true

/-- C10: every combination returned by a `number_combinations` call with
an addition card contains an item Python-equal to that card (inside a
selected group, or among the appended equalities), so the `remove` the
PileOn branch performs on it cannot fail. -/
theorem C10_addition_in_combo (table : List TableItem) (turn v : Nat) (a : Card)
    (combo : List TableItem)
    (h : combo ∈ number_combinations table turn v (some a)) :
    ∃ it ∈ combo, itemEqCard it a = true := by
  rcases number_combinations_mem_inv h with
    ⟨sel, _, hval, rfl⟩ | ⟨rfl, hcond, _⟩
  · rcases (selectionValid_iff.mp hval).2.1 a rfl with haie | hcont
    · simp only [additionIsEqual] at haie
      rw [equalitiesOf_of_equal haie]
      refine ⟨TableItem.card a, ?_, by simp [itemEqCard, sameId_refl]⟩
      simp
    · obtain ⟨it, hit, he⟩ := List.any_eq_true.mp hcont
      exact ⟨it, List.mem_append_left _ hit, he⟩
  · simp only [Option.isNone, Bool.false_or, Bool.and_eq_true] at hcond
    have haie := hcond.1
    simp only [additionIsEqual] at haie
    rw [equalitiesOf_of_equal haie]
    refine ⟨TableItem.card a, ?_, by simp [itemEqCard, sameId_refl]⟩
    simp

/-- C10 witness: the statement applied to the table 7♥, 9♥ with addition
2♠ at target 9, whose unique combination is 2♠+7♥ plus the equal 9♥. -/
theorem C10_witness :
    [TableItem.card c2s, TableItem.card c7h, TableItem.card c9h] ∈
      number_combinations [TableItem.card c7h, TableItem.card c9h] 0 9 (some c2s) ∧
    ∃ it ∈ [TableItem.card c2s, TableItem.card c7h, TableItem.card c9h],
      itemEqCard it c2s = true :=
  ⟨by decide,
    C10_addition_in_combo [TableItem.card c7h, TableItem.card c9h] 0 9 c2s
      [TableItem.card c2s, TableItem.card c7h, TableItem.card c9h] (by decide)⟩

/-- C2: every combination the search returns is the flattening of a
sub-selection of the exact-sum group list plus the equal-value items,
where each selected group sums to the target, no card is used twice, a
non-equality addition occurs in some selected group, and no unselected
group is disjoint from the used cards (maximality).  The table items
(together with the addition) are assumed pairwise distinct, as the 52
unique cards of a deal guarantee. -/
theorem C2_selection_soundness (table : List TableItem) (turn v : Nat)
    (add : Option Card)
    (hnd : allDistinctItems (tableWithAddition table add) = true)
    (combo : List TableItem)
    (h : combo ∈ number_combinations table turn v add) :
    ∃ sel : List (List TableItem), sel.Sublist (groupsOf table turn v add) ∧
      combo = sel.flatten ++ equalitiesOf table v add ∧
      (∀ gp ∈ sel, sumValues gp = v) ∧
      allDistinctItems sel.flatten = true ∧
      (∀ a, add = some a → ¬ a.value = v →
        itemsContainCard sel.flatten a = true) ∧
      (∀ uc ∈ groupsOf table turn v add, sel.any (groupEq uc) = false →
        uc.any (fun it => itemMem it sel.flatten) = true) := by
  have hpool : allDistinctItems (poolOf table turn v add) = true :=
    allDistinctItems_sublist poolOf_sublist_tableWithAddition hnd
  rcases number_combinations_mem_inv h with
    ⟨sel, hsel, hval, rfl⟩ | ⟨rfl, hcond, hno⟩
  · obtain ⟨hdist, haddc, hmax⟩ := selectionValid_iff.mp hval
    have hsub := (mem_allNonemptySubs.mp hsel).1
    refine ⟨sel, hsub, rfl, ?_, hdist, ?_, hmax⟩
    · intro gp hgp
      have hgpg := hsub.subset hgp
      simp only [groupsOf] at hgpg
      exact (exactGroups_mem hgpg).2.2
    · intro a ha hne
      rcases haddc a ha with haie | hc
      · rw [ha] at haie
        simp only [additionIsEqual] at haie
        exact absurd (by simpa using haie) hne
      · exact hc
  · have hadd : add = none ∨ additionIsEqual v add = true := by
      cases add with
      | none => exact Or.inl rfl
      | some a =>
        right
        simp only [Option.isNone, Bool.false_or, Bool.and_eq_true] at hcond
        exact hcond.1
    have hnil : groupsOf table turn v add = [] := by
      refine groups_nil_of_no_valid ?_ hadd hno
      intro gp hgp
      simp only [groupsOf] at hgp
      exact exactGroups_distinct hpool gp hgp
    refine ⟨[], List.nil_sublist _, ?_, ?_, rfl, ?_, ?_⟩
    · show equalitiesOf table v add = List.flatten [] ++ equalitiesOf table v add
      rw [List.flatten_nil, List.nil_append]
    · intro gp hgp
      cases hgp
    · intro a ha hne
      rcases hadd with h0 | h0
      · rw [ha] at h0
        cases h0
      · rw [ha] at h0
        simp only [additionIsEqual] at h0
        exact absurd (by simpa using h0) hne
    · intro uc huc
      rw [hnil] at huc
      cases huc

/-- C2 witness: the soundness statement applied to the concrete call of
the `gC1` scenario (table 2♥, 7♠, 9♥, 9♦, target 9, no addition). -/
theorem C2_witness :
    allDistinctItems (tableWithAddition gC1.table none) = true ∧
    [TableItem.card c2h, TableItem.card c7s, TableItem.card c9h,
      TableItem.card c9d] ∈ number_combinations gC1.table 0 9 none ∧
    ∃ sel : List (List TableItem), sel.Sublist (groupsOf gC1.table 0 9 none) ∧
      [TableItem.card c2h, TableItem.card c7s, TableItem.card c9h,
        TableItem.card c9d] = sel.flatten ++ equalitiesOf gC1.table 9 none ∧
      (∀ gp ∈ sel, sumValues gp = 9) ∧
      allDistinctItems sel.flatten = true ∧
      (∀ a, (none : Option Card) = some a → ¬ a.value = 9 →
        itemsContainCard sel.flatten a = true) ∧
      (∀ uc ∈ groupsOf gC1.table 0 9 none, sel.any (groupEq uc) = false →
        uc.any (fun it => itemMem it sel.flatten) = true) :=
  ⟨by decide, by decide,
    C2_selection_soundness gC1.table 0 9 none (by decide) _ (by decide)⟩

/-- C9: a hand card whose value keys a pile created by the mover, with no
other hand card of the same value, generates only PickUp actions: the
generator skips its PileOn and Throw processing entirely. -/
theorem C9_lockout (g : GameState) (card : Card) (p : Pile)
    (hp : alistLookup g.piles card.value = some p)
    (hcr : p.creators.contains g.turn = true)
    (hval : ∀ c ∈ g.mover.hand, Card.sameId c card = false →
      c.value ≠ card.value) :
    ∀ a ∈ get_valid_actions g, Card.sameId a.playedCard card = true →
      a.actionType = ActionType.pickUp := by
  intro a ha hsame
  unfold get_valid_actions at ha
  rw [List.mem_flatMap] at ha
  obtain ⟨c, hc, hac⟩ := ha
  have hpc := actionsForCard_playedCard hac
  rw [hpc] at hsame
  have hcv : c.value = card.value := sameId_value hsame
  have hlock : lockedOut g c (otherCardValues g.mover.hand c) = true := by
    unfold lockedOut
    rw [hcv, hp]
    rw [Bool.and_eq_true]
    refine ⟨hcr, ?_⟩
    rcases hcont : (otherCardValues g.mover.hand c).contains card.value with _ | _
    · rfl
    · exfalso
      have hmemv : card.value ∈ otherCardValues g.mover.hand c :=
        List.elem_iff.mp hcont
      obtain ⟨x, hx, hxne, hxv⟩ := mem_otherCardValues.mp hmemv
      rw [sameId_congr hsame] at hxne
      exact hval x hx hxne hxv
  rw [actionsForCard_locked hlock] at hac
  rw [List.mem_map] at hac
  obtain ⟨_, _, rfl⟩ := hac
  rfl

/-- C9 witness: the lock-out statement applied to a mover holding only the
9♠ while owning the pile of 9 on the table. -/
theorem C9_witness :
    alistLookup gC9.piles c9s.value = some pC9 ∧
    pC9.creators.contains gC9.turn = true ∧
    (∀ c ∈ gC9.mover.hand, Card.sameId c c9s = false → c.value ≠ c9s.value) ∧
    ∀ a ∈ get_valid_actions gC9, Card.sameId a.playedCard c9s = true →
      a.actionType = ActionType.pickUp :=
  ⟨by decide, by decide, by decide,
    C9_lockout gC9 c9s pC9 (by decide) (by decide) (by decide)⟩

/-- C8 (amended): the generator does not sort across hand cards; instead
the action list is the concatenation, in hand order, of each card's
actions, and within one card's block every PickUp comes before every
PileOn and every PileOn before the (at most one) Throw. -/
theorem C8_per_card_kind_order (g : GameState) (card : Card) :
    get_valid_actions g = g.mover.hand.flatMap (actionsForCard g g.mover.hand) ∧
    ∃ pu po th : List Action,
      actionsForCard g g.mover.hand card = pu ++ po ++ th ∧
      pu.all (fun a => a.actionType == ActionType.pickUp) = true ∧
      po.all (fun a => a.actionType == ActionType.pileOn) = true ∧
      th.all (fun a => a.actionType == ActionType.throw) = true := by
  refine ⟨rfl, ?_⟩
  have hpick : ∀ l : List (List TableItem),
      (l.map (fun c => Action.mk .pickUp card card.value c)).all
        (fun a => a.actionType == ActionType.pickUp) = true := by
    intro l
    rw [List.all_eq_true]
    intro a ha
    rw [List.mem_map] at ha
    obtain ⟨_, _, rfl⟩ := ha
    rfl
  unfold actionsForCard
  by_cases hl : lockedOut g card (otherCardValues g.mover.hand card) = true
  · rw [if_pos hl]
    exact ⟨(number_combinations g.table g.turn card.value none).map
        (fun c => Action.mk .pickUp card card.value c), [], [],
      by simp, hpick _, rfl, rfl⟩
  · rw [if_neg hl]
    refine ⟨_, _, _, rfl, hpick _, ?_, ?_⟩
    · rw [List.all_eq_true]
      intro a ha
      rw [List.mem_flatMap] at ha
      obtain ⟨vt, _, ha⟩ := ha
      unfold pileOnsFor at ha
      split at ha
      · rw [List.mem_map] at ha
        obtain ⟨_, _, rfl⟩ := ha
        rfl
      · cases ha
    · split
      · rfl
      · rfl

/-- C8 witness: the per-card ordering statement applied to `gC8` and the
2♠. -/
theorem C8_witness :
    get_valid_actions gC8 =
      gC8.mover.hand.flatMap (actionsForCard gC8 gC8.mover.hand) ∧
    ∃ pu po th : List Action,
      actionsForCard gC8 gC8.mover.hand c2s = pu ++ po ++ th ∧
      pu.all (fun a => a.actionType == ActionType.pickUp) = true ∧
      po.all (fun a => a.actionType == ActionType.pileOn) = true ∧
      th.all (fun a => a.actionType == ActionType.throw) = true :=
  C8_per_card_kind_order gC8 c2s

theorem sweepFlag_iff {t : List TableItem} {d h1 h2 : List Card} :
    (t.isEmpty && (!d.isEmpty || !h1.isEmpty || !h2.isEmpty)) = true ↔
      (t = [] ∧ (d ≠ [] ∨ h1 ≠ [] ∨ h2 ≠ [])) := by
  rw [Bool.and_eq_true, Bool.or_eq_true, Bool.or_eq_true]
  simp [List.isEmpty_iff]
  intro _
  exact or_assoc

/-- C7: a successful PickUp execution always records the mover as last to
pick up, extends the mover's captured cards by the played card and all
absorbed cards, adds exactly their summed point values to the mover's
points, and bumps the sweep counter precisely when the table ends up
empty while cards remain to be played (a non-empty deck or some non-empty
hand, checked after the played card left the hand). -/
theorem C7_pickup_effects (g g' : GameState) (a : Action) (hturn : g.turn < 2)
    (h : PickUpAction.execute g a = some g') :
    g'.turn = g.turn ∧
    g'.lastToPickUp = some g.turn ∧
    g'.mover.points = g.mover.points +
      ((a.playedCard :: expandItems a.otherItems).map Card.points).sum ∧
    g'.mover.captured =
      g.mover.captured ++ (a.playedCard :: expandItems a.otherItems) ∧
    g'.mover.sweeps =
      (if g'.table = [] ∧
          (g.deck ≠ [] ∨ g'.mover.hand ≠ [] ∨ g'.otherPlayer.hand ≠ []) then
        g.mover.sweeps + 1
       else g.mover.sweeps) := by
  unfold PickUpAction.execute at h
  cases hrm : removeCard g.mover.hand a.playedCard with
  | none =>
    rw [hrm] at h
    simp at h
  | some hand' =>
  rw [hrm] at h
  cases hcs : consumeItems a.otherItems g.piles g.table [] none with
  | none =>
    rw [hcs] at h
    simp at h
  | some st =>
  rw [hcs] at h
  have h2 := Option.some.inj h
  have hturn01 : g.turn = 0 ∨ g.turn = 1 := by omega
  subst h2
  rcases hturn01 with ht | ht
  · simp [GameState.mover, GameState.setMover, GameState.otherPlayer, ht]
    by_cases hdec : st.2.1 = [] ∧
        (¬g.deck = [] ∨ ¬hand' = [] ∨ ¬g.player1.hand = [])
    · rw [if_pos (show st.2.1 = [] ∧
          ((¬g.deck = [] ∨ ¬hand' = []) ∨ ¬g.player1.hand = []) from by tauto),
        if_pos hdec]
    · rw [if_neg (show ¬(st.2.1 = [] ∧
          ((¬g.deck = [] ∨ ¬hand' = []) ∨ ¬g.player1.hand = [])) from by tauto),
        if_neg hdec]
  · simp [GameState.mover, GameState.setMover, GameState.otherPlayer, ht]
    by_cases hdec : st.2.1 = [] ∧
        (¬g.deck = [] ∨ ¬hand' = [] ∨ ¬g.player0.hand = [])
    · rw [if_pos (show st.2.1 = [] ∧
          ((¬g.deck = [] ∨ ¬hand' = []) ∨ ¬g.player0.hand = []) from by tauto),
        if_pos hdec]
    · rw [if_neg (show ¬(st.2.1 = [] ∧
          ((¬g.deck = [] ∨ ¬hand' = []) ∨ ¬g.player0.hand = [])) from by tauto),
        if_neg hdec]

/-- C7 witness: the PickUp statement applied to the capture of the lone
9♥ by the 9♠ in `gC7` (no sweep: no cards remain in play). -/
theorem C7_witness :
    gC7.turn < 2 ∧ PickUpAction.execute gC7 aC7 = some gC7res ∧
    (gC7res.turn = gC7.turn ∧
    gC7res.lastToPickUp = some gC7.turn ∧
    gC7res.mover.points = gC7.mover.points +
      ((aC7.playedCard :: expandItems aC7.otherItems).map Card.points).sum ∧
    gC7res.mover.captured =
      gC7.mover.captured ++ (aC7.playedCard :: expandItems aC7.otherItems) ∧
    gC7res.mover.sweeps =
      (if gC7res.table = [] ∧
          (gC7.deck ≠ [] ∨ gC7res.mover.hand ≠ [] ∨
            gC7res.otherPlayer.hand ≠ []) then
        gC7.mover.sweeps + 1
       else gC7.mover.sweeps)) :=
  ⟨by decide, by decide,
    C7_pickup_effects gC7 gC7res aC7 (by decide) (by decide)⟩

theorem itemIds_expand (it : TableItem) :
    (expandItem it).map cardId = itemIds it := by
  cases it <;> simp [expandItem, itemIds]

theorem expandItems_ids (l : List TableItem) :
    (expandItems l).map cardId = tableIds l := by
  induction l with
  | nil => rfl
  | cons x xs ih =>
    show ((expandItem x ++ expandItems xs).map cardId) = itemIds x ++ tableIds xs
    rw [List.map_append, itemIds_expand, ih]

theorem tableIds_append (a b : List TableItem) :
    tableIds (a ++ b) = tableIds a ++ tableIds b := by
  simp [tableIds]

theorem sameId_cardId {a b : Card} (h : Card.sameId a b = true) :
    cardId a = cardId b := by
  simp [Card.sameId] at h
  simp [cardId, h.1, h.2]

theorem itemEq_shares_id {x y : TableItem} (he : itemEq x y = true)
    (hne : itemIds x ≠ []) : ∃ i, i ∈ itemIds x ∧ i ∈ itemIds y := by
  cases x with
  | card c =>
    cases y with
    | card c' =>
      refine ⟨cardId c, by simp [itemIds], ?_⟩
      simp [itemIds]
      exact sameId_cardId he
    | pile q => cases he
  | pile p =>
    cases y with
    | card c' => cases he
    | pile q =>
      have hpq : p = q := by simpa [itemEq] using he
      subst hpq
      cases hids : itemIds (TableItem.pile p) with
      | nil => exact absurd hids hne
      | cons i rest =>
        exact ⟨i, List.mem_cons_self _ _, List.mem_cons_self _ _⟩

theorem tableIds_nodup_allDistinct {t : List TableItem}
    (hnd : (tableIds t).Nodup)
    (hne : ∀ p : Pile, TableItem.pile p ∈ t → p.cards ≠ []) :
    allDistinctItems t = true := by
  induction t with
  | nil => rfl
  | cons x xs ih =>
    have htid : tableIds (x :: xs) = itemIds x ++ tableIds xs := by
      simp [tableIds]
    rw [htid, List.nodup_append] at hnd
    unfold allDistinctItems
    rw [Bool.and_eq_true]
    constructor
    · rcases hm : itemMem x xs with _ | _
      · rfl
      · exfalso
        obtain ⟨y, hy, he⟩ := itemMem_iff.mp hm
        have hxids : itemIds x ≠ [] := by
          cases x with
          | card c => simp [itemIds]
          | pile p =>
            have := hne p (List.mem_cons_self _ _)
            simp [itemIds]
            exact this
        obtain ⟨i, hix, hiy⟩ := itemEq_shares_id he hxids
        have hin : i ∈ tableIds xs := by
          rw [tableIds, List.mem_flatMap]
          exact ⟨y, hy, hiy⟩
        exact hnd.2.2 hix hin
    · exact ih hnd.2.1 (fun p hp => hne p (List.mem_cons_of_mem _ hp))

theorem removeCard_spec {hand : List Card} {c : Card}
    (hnd : (hand.map cardId).Nodup) (hc : c ∈ hand) :
    ∃ h1 h2, hand = h1 ++ c :: h2 ∧ removeCard hand c = some (h1 ++ h2) := by
  induction hand with
  | nil => cases hc
  | cons y ys ih =>
    rw [List.map_cons, List.nodup_cons] at hnd
    by_cases hs : Card.sameId y c = true
    · rcases List.mem_cons.mp hc with rfl | hcm
      · exact ⟨[], ys, rfl, by simp [removeCard, sameId_refl]⟩
      · exfalso
        have : cardId c ∈ ys.map cardId := List.mem_map_of_mem _ hcm
        rw [← sameId_cardId hs] at this
        exact hnd.1 this
    · have hcm : c ∈ ys := by
        rcases List.mem_cons.mp hc with rfl | h
        · exact absurd (sameId_refl c) (by simpa using hs)
        · exact h
      obtain ⟨h1, h2, heq, hrm⟩ := ih hnd.2 hcm
      refine ⟨y :: h1, h2, by rw [List.cons_append, heq], ?_⟩
      unfold removeCard
      rw [if_neg (by simpa using hs), hrm]
      rfl

theorem removeItem_spec {t : List TableItem} {x : TableItem}
    (hdist : allDistinctItems t = true) (hx : x ∈ t) :
    ∃ t1 t2, t = t1 ++ x :: t2 ∧ removeItem t x = some (t1 ++ t2) := by
  induction t with
  | nil => cases hx
  | cons y ys ih =>
    unfold allDistinctItems at hdist
    rw [Bool.and_eq_true] at hdist
    by_cases he : itemEq y x = true
    · rcases List.mem_cons.mp hx with rfl | hxm
      · exact ⟨[], ys, rfl, by simp [removeItem, itemEq_refl]⟩
      · exfalso
        have hm : itemMem y ys = true :=
          itemMem_iff.mpr ⟨x, hxm, he⟩
        rw [hm] at hdist
        simp at hdist
    · have hxm : x ∈ ys := by
        rcases List.mem_cons.mp hx with rfl | h
        · exact absurd (itemEq_refl x) (by simpa using he)
        · exact h
      obtain ⟨t1, t2, heq, hrm⟩ := ih hdist.2 hxm
      refine ⟨y :: t1, t2, by rw [List.cons_append, heq], ?_⟩
      unfold removeItem
      rw [if_neg (by simpa using he), hrm]
      rfl

theorem notMem_of_allDistinct_split {t1 t2 : List TableItem} {x : TableItem}
    (hdist : allDistinctItems (t1 ++ x :: t2) = true) : x ∉ t1 ++ t2 := by
  rw [allDistinctItems_pairwise] at hdist
  intro hmem
  rw [List.mem_append] at hmem
  rcases hmem with hmem | hmem
  · have := (List.pairwise_append.mp hdist).2.2 x hmem x (List.mem_cons_self _ _)
    rw [itemEq_refl] at this
    cases this
  · have hx := List.pairwise_cons.mp (List.pairwise_append.mp hdist).2.1
    have := hx.1 x hmem
    rw [itemEq_refl] at this
    cases this

theorem alistLookup_none_iff {m : List (Nat × Pile)} {k : Nat} :
    alistLookup m k = none ↔ k ∉ m.map Prod.fst := by
  induction m with
  | nil => simp [alistLookup]
  | cons pr m ih =>
    obtain ⟨k0, p0⟩ := pr
    rw [List.map_cons, List.mem_cons]
    show (if k0 = k then some p0 else alistLookup m k) = none ↔
      ¬(k = k0 ∨ k ∈ m.map Prod.fst)
    by_cases h : k0 = k
    · subst h
      rw [if_pos rfl]
      simp
    · rw [if_neg h, ih]
      constructor
      · intro hnm hor
        rcases hor with h1 | h1
        · exact h h1.symm
        · exact hnm h1
      · intro hnor h1
        exact hnor (Or.inr h1)

theorem alistLookup_isSome_of_entry {m : List (Nat × Pile)} {k : Nat} {p : Pile}
    (h : (k, p) ∈ m) : alistLookup m k ≠ none := by
  intro hnone
  rw [alistLookup_none_iff] at hnone
  exact hnone (List.mem_map_of_mem _ h)

theorem alistErase_spec {m : List (Nat × Pile)} {k : Nat} {p : Pile}
    (hl : alistLookup m k = some p) (hnd : (m.map Prod.fst).Nodup) :
    ∃ m', alistErase m k = some m' ∧
      (∀ pr ∈ m', pr ∈ m) ∧
      (∀ k', k' ≠ k → alistLookup m' k' = alistLookup m k') ∧
      alistLookup m' k = none ∧
      (m'.map Prod.fst).Nodup := by
  induction m with
  | nil => cases hl
  | cons pr m ih =>
    obtain ⟨k0, p0⟩ := pr
    rw [List.map_cons, List.nodup_cons] at hnd
    by_cases h : k0 = k
    · refine ⟨m, ?_, fun pr hpr => List.mem_cons_of_mem _ hpr, ?_, ?_, hnd.2⟩
      · show (if k0 = k then some m else (alistErase m k).map ((k0, p0) :: ·)) =
          some m
        rw [if_pos h]
      · intro k' hk'
        show alistLookup m k' = (if k0 = k' then some p0 else alistLookup m k')
        rw [if_neg (fun he : k0 = k' => hk' (he ▸ h))]
      · rw [alistLookup_none_iff]
        exact h ▸ hnd.1
    · have hl' : alistLookup m k = some p := by
        have hh : (if k0 = k then some p0 else alistLookup m k) = some p := hl
        rwa [if_neg h] at hh
      obtain ⟨m', hm', hsub, hlook, hnone, hnd'⟩ := ih hl' hnd.2
      refine ⟨(k0, p0) :: m', ?_, ?_, ?_, ?_, ?_⟩
      · show (if k0 = k then some m else (alistErase m k).map ((k0, p0) :: ·)) =
          some ((k0, p0) :: m')
        rw [if_neg h, hm']
        rfl
      · intro q hq
        rcases List.mem_cons.mp hq with rfl | hq
        · exact List.mem_cons_self _ _
        · exact List.mem_cons_of_mem _ (hsub q hq)
      · intro k' hk'
        show (if k0 = k' then some p0 else alistLookup m' k') =
          (if k0 = k' then some p0 else alistLookup m k')
        by_cases h0 : k0 = k'
        · rw [if_pos h0, if_pos h0]
        · rw [if_neg h0, if_neg h0]
          exact hlook k' hk'
      · show (if k0 = k then some p0 else alistLookup m' k) = none
        rw [if_neg h]
        exact hnone
      · rw [List.map_cons, List.nodup_cons]
        refine ⟨?_, hnd'⟩
        intro hk0
        rw [List.mem_map] at hk0
        obtain ⟨q, hq, hqk⟩ := hk0
        exact hnd.1 (hqk ▸ List.mem_map_of_mem Prod.fst (hsub q hq))

theorem alistInsert_fresh {m : List (Nat × Pile)} {k : Nat} (p : Pile)
    (hk : k ∉ m.map Prod.fst) : alistInsert m k p = m ++ [(k, p)] := by
  induction m with
  | nil => rfl
  | cons pr m ih =>
    obtain ⟨k0, p0⟩ := pr
    rw [List.map_cons] at hk
    unfold alistInsert
    rw [if_neg (fun he => hk (by rw [he]; exact List.mem_cons_self _ _))]
    rw [ih (fun hm => hk (List.mem_cons_of_mem _ hm))]
    rfl

theorem alistLookup_append_some {m1 m2 : List (Nat × Pile)} {k : Nat} {p : Pile}
    (h : alistLookup m1 k = some p) : alistLookup (m1 ++ m2) k = some p := by
  induction m1 with
  | nil => cases h
  | cons pr m ih =>
    obtain ⟨k0, p0⟩ := pr
    have hh : (if k0 = k then some p0 else alistLookup m k) = some p := h
    show (if k0 = k then some p0 else alistLookup (m ++ m2) k) = some p
    by_cases h0 : k0 = k
    · rw [if_pos h0] at hh ⊢
      exact hh
    · rw [if_neg h0] at hh ⊢
      exact ih hh

theorem alistLookup_append_none {m1 m2 : List (Nat × Pile)} {k : Nat}
    (h : alistLookup m1 k = none) :
    alistLookup (m1 ++ m2) k = alistLookup m2 k := by
  induction m1 with
  | nil => rfl
  | cons pr m ih =>
    obtain ⟨k0, p0⟩ := pr
    have hh : (if k0 = k then some p0 else alistLookup m k) = none := h
    show (if k0 = k then some p0 else alistLookup (m ++ m2) k) = alistLookup m2 k
    by_cases h0 : k0 = k
    · rw [if_pos h0] at hh
      cases hh
    · rw [if_neg h0] at hh ⊢
      exact ih hh

theorem tableIds_perm {a b : List TableItem} (h : a.Perm b) :
    (tableIds a).Perm (tableIds b) :=
  h.flatMap_right itemIds

theorem consumeItems_cons_card (c : Card) (rest : List TableItem)
    (piles : List (Nat × Pile)) (table : List TableItem) (cr : List Nat)
    (vt : Option Nat) :
    consumeItems (TableItem.card c :: rest) piles table cr vt =
      (removeItem table (TableItem.card c)).bind (fun t' =>
        consumeItems rest piles t' cr vt) := rfl

theorem consumeItems_cons_pile (p : Pile) (rest : List TableItem)
    (piles : List (Nat × Pile)) (table : List TableItem) (cr : List Nat)
    (vt : Option Nat) :
    consumeItems (TableItem.pile p :: rest) piles table cr vt =
      (alistErase piles p.value).bind (fun pl =>
        (removeItem table (TableItem.pile p)).bind (fun t' =>
          consumeItems rest pl t'
            (if vt = some p.value then p.creators else cr) vt)) := by
  cases h : alistErase piles p.value with
  | none => simp [consumeItems, h]
  | some pl => simp [consumeItems, h]

theorem consumeItems_spec :
    ∀ (items : List TableItem) (piles : List (Nat × Pile))
      (table : List TableItem) (creators : List Nat) (vt : Option Nat),
      (∀ x ∈ items, x ∈ table) →
      allDistinctItems items = true →
      allDistinctItems table = true →
      (∀ pr ∈ piles, pr.1 = pr.2.value ∧ TableItem.pile pr.2 ∈ table) →
      (∀ p : Pile, TableItem.pile p ∈ table → alistLookup piles p.value = some p) →
      (piles.map Prod.fst).Nodup →
      ∃ piles' table' cr',
        consumeItems items piles table creators vt = some (piles', table', cr') ∧
        table.Perm (items ++ table') ∧
        allDistinctItems table' = true ∧
        (∀ pr ∈ piles', pr.1 = pr.2.value ∧ TableItem.pile pr.2 ∈ table') ∧
        (∀ p : Pile, TableItem.pile p ∈ table' →
          alistLookup piles' p.value = some p) ∧
        (piles'.map Prod.fst).Nodup ∧
        (∀ x ∈ table', x ∈ table) := by
  intro items
  induction items with
  | nil =>
    intro piles table creators vt _ _ hdt ha1 ha2 hk
    exact ⟨piles, table, creators, rfl, by simp, hdt, ha1, ha2, hk,
      fun x hx => hx⟩
  | cons x rest ih =>
    intro piles table creators vt hsub hdi hdt ha1 ha2 hk
    have hxt : x ∈ table := hsub x (List.mem_cons_self _ _)
    obtain ⟨t1, t2, hsplit, hrm⟩ := removeItem_spec hdt hxt
    have hxnotin : x ∉ t1 ++ t2 := by
      rw [hsplit] at hdt
      exact notMem_of_allDistinct_split hdt
    have hperm0 : table.Perm (x :: (t1 ++ t2)) := by
      rw [hsplit]
      exact List.perm_middle
    have hdt0 : allDistinctItems (t1 ++ t2) = true := by
      refine allDistinctItems_sublist ?_ hdt
      rw [hsplit]
      exact (List.sublist_cons_self x t2).append_left t1
    have hmem0 : ∀ y, y ∈ t1 ++ t2 → y ∈ table := by
      intro y hy
      rw [hsplit]
      rw [List.mem_append] at hy ⊢
      rcases hy with hy | hy
      · exact Or.inl hy
      · exact Or.inr (List.mem_cons_of_mem _ hy)
    have hsub0 : ∀ y ∈ rest, y ∈ t1 ++ t2 := by
      intro y hy
      have hyt : y ∈ table := hsub y (List.mem_cons_of_mem _ hy)
      have hyx : y ≠ x := by
        intro he
        unfold allDistinctItems at hdi
        rw [Bool.and_eq_true] at hdi
        have : itemMem x rest = true := itemMem_iff.mpr ⟨y, hy, by
          rw [he]
          exact itemEq_refl x⟩
        rw [this] at hdi
        simp at hdi
      rw [hsplit] at hyt
      rw [List.mem_append] at hyt ⊢
      rcases hyt with hy1 | hy1
      · exact Or.inl hy1
      · rcases List.mem_cons.mp hy1 with he | hy2
        · exact absurd he hyx
        · exact Or.inr hy2
    have hdi0 : allDistinctItems rest = true := by
      unfold allDistinctItems at hdi
      rw [Bool.and_eq_true] at hdi
      exact hdi.2
    cases x with
    | card c =>
      have ha1' : ∀ pr ∈ piles, pr.1 = pr.2.value ∧
          TableItem.pile pr.2 ∈ t1 ++ t2 := by
        intro pr hpr
        refine ⟨(ha1 pr hpr).1, ?_⟩
        have hmem := (ha1 pr hpr).2
        rw [hsplit] at hmem
        rw [List.mem_append] at hmem ⊢
        rcases hmem with hm | hm
        · exact Or.inl hm
        · rcases List.mem_cons.mp hm with he | hm2
          · cases he
          · exact Or.inr hm2
      have ha2' : ∀ p : Pile, TableItem.pile p ∈ t1 ++ t2 →
          alistLookup piles p.value = some p := by
        intro p hp
        exact ha2 p (hmem0 _ hp)
      obtain ⟨piles', table', cr', hrun, hperm, hdt', hb1, hb2, hbk, hbm⟩ :=
        ih piles (t1 ++ t2) creators vt hsub0 hdi0 hdt0 ha1' ha2' hk
      refine ⟨piles', table', cr', ?_, ?_, hdt', hb1, hb2, hbk, ?_⟩
      · rw [consumeItems_cons_card, hrm]
        exact hrun
      · exact hperm0.trans ((hperm.cons _).trans (List.Perm.refl _))
      · intro y hy
        exact hmem0 _ (hbm y hy)
    | pile p =>
      have hlp : alistLookup piles p.value = some p := ha2 p hxt
      obtain ⟨m', hm', hesub, helook, henone, hend⟩ := alistErase_spec hlp hk
      have hpnotin : TableItem.pile p ∉ t1 ++ t2 := hxnotin
      have ha1' : ∀ pr ∈ m', pr.1 = pr.2.value ∧
          TableItem.pile pr.2 ∈ t1 ++ t2 := by
        intro pr hpr
        have hprm := hesub pr hpr
        refine ⟨(ha1 pr hprm).1, ?_⟩
        have hne : pr.2 ≠ p := by
          intro he
          have hkey : pr.1 = p.value := by
            rw [(ha1 pr hprm).1, he]
          have hent : (p.value, pr.2) ∈ m' := by
            have hpr2 : pr = (p.value, pr.2) := by
              rw [← hkey]
            rw [← hpr2]
            exact hpr
          exact alistLookup_isSome_of_entry hent henone
        have hmem := (ha1 pr hprm).2
        rw [hsplit] at hmem
        rw [List.mem_append] at hmem ⊢
        rcases hmem with hm | hm
        · exact Or.inl hm
        · rcases List.mem_cons.mp hm with he | hm2
          · exact absurd (by injection he) hne
          · exact Or.inr hm2
      have ha2' : ∀ q : Pile, TableItem.pile q ∈ t1 ++ t2 →
          alistLookup m' q.value = some q := by
        intro q hq
        have hqt : TableItem.pile q ∈ table := hmem0 _ hq
        have hql := ha2 q hqt
        have hqp : q ≠ p := by
          intro he
          rw [he] at hq
          exact hpnotin hq
        have hqv : q.value ≠ p.value := by
          intro he
          rw [he] at hql
          rw [hlp] at hql
          injection hql with hql
          exact hqp hql.symm
        rw [helook q.value hqv]
        exact hql
      obtain ⟨piles', table', cr', hrun, hperm, hdt', hb1, hb2, hbk, hbm⟩ :=
        ih m' (t1 ++ t2) (if vt = some p.value then p.creators else creators)
          vt hsub0 hdi0 hdt0 ha1' ha2' hend
      refine ⟨piles', table', cr', ?_, ?_, hdt', hb1, hb2, hbk, ?_⟩
      · rw [consumeItems_cons_pile, hm', Option.some_bind, hrm, Option.some_bind]
        exact hrun
      · exact hperm0.trans (hperm.cons _)
      · intro y hy
        exact hmem0 _ (hbm y hy)

theorem equalitiesBase_mem_equalitiesOf {table : List TableItem} {v : Nat}
    {add : Option Card} {x : TableItem} (h : x ∈ equalitiesBase table v) :
    x ∈ equalitiesOf table v add := by
  cases add with
  | none => exact h
  | some a =>
    simp only [equalitiesOf]
    by_cases h1 : a.value == v
    · rw [if_pos h1]
      exact List.mem_append_left _ h
    · rw [if_neg h1]
      exact h

theorem sel_flatten_lt {table : List TableItem} {turn v : Nat}
    {add : Option Card} {sel : List (List TableItem)}
    (hsel : sel.Sublist (groupsOf table turn v add)) :
    ∀ it ∈ sel.flatten, it.value < v := by
  intro it hit
  exact poolOf_value_lt (sel_flatten_subset_poolOf hsel it hit)

theorem combo_facts {table : List TableItem} {turn v : Nat} {add : Option Card}
    {combo : List TableItem}
    (hnd : allDistinctItems (tableWithAddition table add) = true)
    (h : combo ∈ number_combinations table turn v add) :
    (∀ it ∈ combo, it ∈ tableWithAddition table add) ∧
    allDistinctItems combo = true ∧
    (∀ x ∈ table, x.value = v → x ∈ combo) := by
  have heqd : allDistinctItems (equalitiesOf table v add) = true :=
    allDistinctItems_sublist equalitiesOf_sublist_tableWithAddition hnd
  rcases number_combinations_mem_inv h with
    ⟨sel, hsel, hval, rfl⟩ | ⟨rfl, _, _⟩
  · have hsub := (mem_allNonemptySubs.mp hsel).1
    have hflatl := sel_flatten_lt hsub
    have hfd := (selectionValid_iff.mp hval).1
    refine ⟨?_, ?_, ?_⟩
    · intro it hit
      rw [List.mem_append] at hit
      rcases hit with hit | hit
      · exact poolOf_mem_tableWithAddition (sel_flatten_subset_poolOf hsub it hit)
      · exact equalitiesOf_mem_tableWithAddition hit
    · rw [allDistinctItems_append, hfd, heqd]
      simp only [Bool.true_and]
      rw [List.all_eq_true]
      intro x hx
      rcases hm : itemMem x (equalitiesOf table v add) with _ | _
      · rfl
      · exfalso
        obtain ⟨y, hy, he⟩ := itemMem_iff.mp hm
        have h1 := hflatl x hx
        have h2 := equalitiesOf_value hy
        have h3 := itemEq_value he
        omega
    · intro x hx hxv
      refine List.mem_append_right _ ?_
      exact equalitiesBase_mem_equalitiesOf (mem_equalitiesBase.mpr ⟨hx, hxv⟩)
  · refine ⟨?_, heqd, ?_⟩
    · intro it hit
      exact equalitiesOf_mem_tableWithAddition hit
    · intro x hx hxv
      exact equalitiesBase_mem_equalitiesOf (mem_equalitiesBase.mpr ⟨hx, hxv⟩)

theorem pile_mem_poolOf {table : List TableItem} {turn v : Nat}
    {add : Option Card} {p : Pile} (h : TableItem.pile p ∈ poolOf table turn v add) :
    TableItem.pile p ∈ table ∧ p.doubled = false := by
  cases add with
  | none =>
    simp only [poolOf] at h
    have := pile_mem_poolBase.mp h
    exact ⟨this.1, this.2.2.2.1⟩
  | some a =>
    simp only [poolOf] at h
    by_cases h1 : a.value == v
    · rw [if_pos h1] at h
      have := pile_mem_poolBase.mp h
      exact ⟨this.1, this.2.2.2.1⟩
    · rw [if_neg h1] at h
      by_cases h2 : a.value < v
      · rw [if_pos h2] at h
        rw [List.mem_append] at h
        rcases h with h | h
        · have := pile_mem_poolBase.mp h
          exact ⟨this.1, this.2.2.2.1⟩
        · rw [List.mem_singleton] at h
          cases h
      · rw [if_neg h2] at h
        have := pile_mem_poolBase.mp h
        exact ⟨this.1, this.2.2.2.1⟩

theorem expandItems_append (a b : List TableItem) :
    expandItems (a ++ b) = expandItems a ++ expandItems b := by
  simp [expandItems]

theorem expandSum_eq_value_of_pool {table : List TableItem} {turn v : Nat}
    {add : Option Card} {it : TableItem}
    (hwf : ∀ p : Pile, TableItem.pile p ∈ table → pileWF p)
    (h : it ∈ poolOf table turn v add) :
    ((expandItem it).map Card.value).sum = it.value := by
  cases it with
  | card c => simp [expandItem, TableItem.value]
  | pile p =>
    obtain ⟨hmem, hdb⟩ := pile_mem_poolOf h
    have := (hwf p hmem).2.2.2 hdb
    simpa [expandItem, TableItem.value] using this

theorem group_expandSum {gp : List TableItem}
    (h : ∀ it ∈ gp, ((expandItem it).map Card.value).sum = it.value) :
    ((expandItems gp).map Card.value).sum = sumValues gp := by
  induction gp with
  | nil => rfl
  | cons x xs ih =>
    have hx := h x (List.mem_cons_self _ _)
    have hxs := ih (fun it hit => h it (List.mem_cons_of_mem _ hit))
    show ((expandItem x ++ expandItems xs).map Card.value).sum =
      sumValues (x :: xs)
    rw [List.map_append, List.sum_append, hx, hxs]
    simp [sumValues]

theorem list_expandSum_mod {v : Nat} {l : List TableItem}
    (h : ∀ it ∈ l, ((expandItem it).map Card.value).sum % v = 0) :
    ((expandItems l).map Card.value).sum % v = 0 := by
  induction l with
  | nil => simp [expandItems]
  | cons x xs ih =>
    have hx := h x (List.mem_cons_self _ _)
    have hxs := ih (fun it hit => h it (List.mem_cons_of_mem _ hit))
    show ((expandItem x ++ expandItems xs).map Card.value).sum % v = 0
    rw [List.map_append, List.sum_append, Nat.add_mod, hx, hxs]
    simp

theorem flatten_expandSum_mod {v : Nat} {sel : List (List TableItem)}
    (h : ∀ gp ∈ sel, ((expandItems gp).map Card.value).sum % v = 0) :
    ((expandItems sel.flatten).map Card.value).sum % v = 0 := by
  induction sel with
  | nil => simp [expandItems]
  | cons gp gps ih =>
    have hx := h gp (List.mem_cons_self _ _)
    have hxs := ih (fun g hg => h g (List.mem_cons_of_mem _ hg))
    rw [List.flatten_cons, expandItems_append, List.map_append, List.sum_append,
      Nat.add_mod, hx, hxs]
    simp

theorem combo_expandSum {table : List TableItem} {turn v : Nat}
    {add : Option Card} {combo : List TableItem}
    (hwf : ∀ p : Pile, TableItem.pile p ∈ table → pileWF p)
    (h : combo ∈ number_combinations table turn v add) :
    ((expandItems combo).map Card.value).sum % v = 0 := by
  have heqs : ∀ it ∈ equalitiesOf table v add,
      ((expandItem it).map Card.value).sum % v = 0 := by
    intro it hit
    have hv := equalitiesOf_value hit
    cases it with
    | card c =>
      simp only [expandItem, List.map_cons, List.map_nil, List.sum_cons,
        List.sum_nil, Nat.add_zero]
      rw [show c.value = v from hv]
      exact Nat.mod_self v
    | pile p =>
      have hmem : TableItem.pile p ∈ table := by
        have := equalitiesOf_mem_tableWithAddition hit
        cases add with
        | none => exact this
        | some a =>
          simp only [tableWithAddition] at this
          rw [List.mem_append] at this
          rcases this with h1 | h1
          · exact h1
          · rw [List.mem_singleton] at h1
            cases h1
      have hw := (hwf p hmem).2.2.1
      have hpv : p.value = v := hv
      show (p.cards.map Card.value).sum % v = 0
      rw [← hpv]
      exact hw
  rcases number_combinations_mem_inv h with
    ⟨sel, hsel, _, rfl⟩ | ⟨rfl, _, _⟩
  · have hsub := (mem_allNonemptySubs.mp hsel).1
    have h1 : ((expandItems sel.flatten).map Card.value).sum % v = 0 := by
      apply flatten_expandSum_mod
      intro gp hgp
      have hgpg := hsub.subset hgp
      have hsum : sumValues gp = v := by
        simp only [groupsOf] at hgpg
        exact (exactGroups_mem hgpg).2.2
      have hpool : ∀ it ∈ gp, it ∈ poolOf table turn v add := by
        intro it hit
        apply sel_flatten_subset_poolOf hsub
        rw [List.mem_flatten]
        exact ⟨gp, hgp, hit⟩
      rw [group_expandSum (fun it hit =>
        expandSum_eq_value_of_pool hwf (hpool it hit)), hsum]
      exact Nat.mod_self v
    have h2 := list_expandSum_mod heqs
    rw [expandItems_append, List.map_append, List.sum_append, Nat.add_mod, h1, h2]
    simp
  · exact list_expandSum_mod heqs

theorem removeCardFromItems_spec {combo : List TableItem} {card : Card}
    (hdist : allDistinctItems combo = true)
    (hmatch : ∀ it ∈ combo, itemEqCard it card = true →
      it = TableItem.card card)
    (hin : TableItem.card card ∈ combo) :
    combo.Perm (TableItem.card card :: removeCardFromItems combo card) ∧
    (∀ it ∈ removeCardFromItems combo card, it ∈ combo) ∧
    allDistinctItems (removeCardFromItems combo card) = true ∧
    TableItem.card card ∉ removeCardFromItems combo card := by
  induction combo with
  | nil => cases hin
  | cons y rest ih =>
    unfold allDistinctItems at hdist
    rw [Bool.and_eq_true] at hdist
    by_cases he : itemEqCard y card = true
    · have hy : y = TableItem.card card := hmatch y (List.mem_cons_self _ _) he
      subst hy
      have hres : removeCardFromItems (TableItem.card card :: rest) card =
          rest := by
        show (if itemEqCard (TableItem.card card) card = true then rest
          else TableItem.card card :: removeCardFromItems rest card) = rest
        rw [if_pos he]
      rw [hres]
      refine ⟨List.Perm.refl _, fun it hit => List.mem_cons_of_mem _ hit,
        hdist.2, ?_⟩
      intro hmem
      have : itemMem (TableItem.card card) rest = true :=
        itemMem_iff.mpr ⟨_, hmem, itemEq_refl _⟩
      rw [this] at hdist
      simp at hdist
    · have hy : y ≠ TableItem.card card := by
        intro heq
        rw [heq] at he
        exact he (by simp [itemEqCard, sameId_refl])
      have hin' : TableItem.card card ∈ rest := by
        rcases List.mem_cons.mp hin with h1 | h1
        · exact absurd h1.symm hy
        · exact h1
      obtain ⟨hperm, hsub, hd, hnot⟩ := ih hdist.2
        (fun it hit hm => hmatch it (List.mem_cons_of_mem _ hit) hm) hin'
      have hres : removeCardFromItems (y :: rest) card =
          y :: removeCardFromItems rest card := by
        show (if itemEqCard y card = true then rest
          else y :: removeCardFromItems rest card) =
          y :: removeCardFromItems rest card
        rw [if_neg (by simpa using he)]
      rw [hres]
      refine ⟨?_, ?_, ?_, ?_⟩
      · exact (hperm.cons y).trans (List.Perm.swap _ _ _)
      · intro it hit
        rcases List.mem_cons.mp hit with rfl | h1
        · exact List.mem_cons_self _ _
        · exact List.mem_cons_of_mem _ (hsub it h1)
      · unfold allDistinctItems
        rw [Bool.and_eq_true]
        refine ⟨?_, hd⟩
        rcases hm : itemMem y (removeCardFromItems rest card) with _ | _
        · rfl
        · exfalso
          obtain ⟨z, hz, hez⟩ := itemMem_iff.mp hm
          have : itemMem y rest = true :=
            itemMem_iff.mpr ⟨z, hsub z hz, hez⟩
          rw [this] at hdist
          simp at hdist
      · intro hmem
        rcases List.mem_cons.mp hmem with h1 | h1
        · exact hy h1.symm
        · exact hnot h1

theorem get_valid_actions_inv {g : GameState} {a : Action}
    (ha : a ∈ get_valid_actions g) :
    ∃ card, card ∈ g.mover.hand ∧
      ((∃ combo, combo ∈ number_combinations g.table g.turn card.value none ∧
          a = Action.mk .pickUp card card.value combo) ∨
       (∃ v combo, v ∈ [9, 10, 11, 12, 13] ∧
          combo ∈ number_combinations g.table g.turn v (some card) ∧
          a = Action.mk .pileOn card v (removeCardFromItems combo card)) ∨
       a = Action.mk .throw card card.value []) := by
  unfold get_valid_actions at ha
  rw [List.mem_flatMap] at ha
  obtain ⟨card, hcard, hac⟩ := ha
  refine ⟨card, hcard, ?_⟩
  unfold actionsForCard at hac
  split at hac
  · rw [List.mem_map] at hac
    obtain ⟨combo, hcombo, rfl⟩ := hac
    exact Or.inl ⟨combo, hcombo, rfl⟩
  · rw [List.mem_append, List.mem_append] at hac
    rcases hac with (hac | hac) | hac
    · rw [List.mem_map] at hac
      obtain ⟨combo, hcombo, rfl⟩ := hac
      exact Or.inl ⟨combo, hcombo, rfl⟩
    · rw [List.mem_flatMap] at hac
      obtain ⟨v, hv, hac⟩ := hac
      unfold pileOnsFor at hac
      split at hac
      · rw [List.mem_map] at hac
        obtain ⟨combo, hcombo, rfl⟩ := hac
        exact Or.inr (Or.inl ⟨v, combo, hv, hcombo, rfl⟩)
      · cases hac
    · split at hac
      · rw [List.mem_singleton] at hac
        exact Or.inr (Or.inr hac)
      · cases hac

theorem pickUpExecute_eq {g : GameState} {a : Action} {hand' : List Card}
    {st : List (Nat × Pile) × List TableItem × List Nat}
    (h1 : removeCard g.mover.hand a.playedCard = some hand')
    (h2 : consumeItems a.otherItems g.piles g.table [] none = some st) :
    PickUpAction.execute g a = some (pickUpResult g a hand' st.1 st.2.1) := by
  unfold PickUpAction.execute pickUpResult
  rw [h1, h2]
  rfl

theorem pileOnExecute_eq {g : GameState} {a : Action} {hand' : List Card}
    {st : List (Nat × Pile) × List TableItem × List Nat} {np : Pile}
    (h1 : removeCard g.mover.hand a.playedCard = some hand')
    (h2 : consumeItems a.otherItems g.piles g.table [] (some a.value) = some st)
    (h3 : mkPile (addCreator st.2.2 g.turn)
      (a.playedCard :: expandItems a.otherItems) a.value = some np) :
    PileOnAction.execute g a = some (pileOnResult g a hand' st.1 st.2.1 np) := by
  unfold PileOnAction.execute
  rw [h1, h2]
  show (mkPile (addCreator st.2.2 g.turn)
      (a.playedCard :: expandItems a.otherItems) a.value).bind
      (fun newPile => some (pileOnResult g a hand' st.1 st.2.1 newPile)) =
    some (pileOnResult g a hand' st.1 st.2.1 np)
  rw [h3]
  rfl

theorem throwExecute_eq {g : GameState} {a : Action} {hand' : List Card}
    (h1 : removeCard g.mover.hand a.playedCard = some hand') :
    ThrowAction.execute g a = some (throwResult g a hand') := by
  unfold ThrowAction.execute throwResult
  rw [h1]
  rfl

theorem mkPile_fields {cr : List Nat} {cards : List Card} {v : Nat} {p : Pile}
    (h : mkPile cr cards v = some p) : p.value = v ∧ p.cards = cards := by
  unfold mkPile at h
  split at h
  · cases h
  · split at h
    · injection h with h
      rw [← h]
      exact ⟨rfl, rfl⟩
    · cases h

theorem mkPile_some (cr : List Nat) {cards : List Card} {v : Nat}
    (hv : v ≠ 0) (hdvd : (cards.map Card.value).sum % v = 0) :
    ∃ p, mkPile cr cards v = some p := by
  unfold mkPile
  rw [if_neg hv, if_pos hdvd]
  exact ⟨_, rfl⟩

theorem allDistinct_nodup {l : List TableItem}
    (h : allDistinctItems l = true) : l.Nodup := by
  rw [allDistinctItems_pairwise] at h
  refine h.imp ?_
  intro x y he
  intro heq
  rw [heq, itemEq_refl] at he
  cases he

theorem addition_mem_combo {table : List TableItem} {turn v : Nat} {a : Card}
    {combo : List TableItem}
    (h : combo ∈ number_combinations table turn v (some a)) :
    ∃ it ∈ combo, itemEqCard it a = true := by
  rcases number_combinations_mem_inv h with
    ⟨sel, _, hval, rfl⟩ | ⟨rfl, hcond, _⟩
  · rcases (selectionValid_iff.mp hval).2.1 a rfl with haie | hcont
    · simp only [additionIsEqual] at haie
      rw [equalitiesOf_of_equal haie]
      refine ⟨TableItem.card a, ?_, by simp [itemEqCard, sameId_refl]⟩
      simp
    · obtain ⟨it, hit, he⟩ := List.any_eq_true.mp hcont
      exact ⟨it, List.mem_append_left _ hit, he⟩
  · simp only [Option.isNone, Bool.false_or, Bool.and_eq_true] at hcond
    have haie := hcond.1
    simp only [additionIsEqual] at haie
    rw [equalitiesOf_of_equal haie]
    refine ⟨TableItem.card a, ?_, by simp [itemEqCard, sameId_refl]⟩
    simp

theorem stateWF_extract {g : GameState} (hwf : StateWF g) :
    (g.mover.hand.map cardId).Nodup ∧
    allDistinctItems g.table = true ∧
    (∀ c ∈ g.mover.hand, cardId c ∉ tableIds g.table) := by
  obtain ⟨hturn, hnd, _, _, hpwf⟩ := hwf
  unfold stateIds at hnd
  rw [List.nodup_append] at hnd
  obtain ⟨hABCD, hE, hdisjE⟩ := hnd
  have hA : (g.player0.hand.map cardId).Nodup := by
    rw [List.nodup_append] at hABCD
    obtain ⟨hABC, _, _⟩ := hABCD
    rw [List.nodup_append] at hABC
    obtain ⟨hAB, _, _⟩ := hABC
    rw [List.nodup_append] at hAB
    exact hAB.1
  have hC : (g.player1.hand.map cardId).Nodup := by
    rw [List.nodup_append] at hABCD
    obtain ⟨hABC, _, _⟩ := hABCD
    rw [List.nodup_append] at hABC
    exact hABC.2.1
  have htd : allDistinctItems g.table = true := by
    apply tableIds_nodup_allDistinct hE
    intro p hp
    exact (hpwf p hp).2.1
  have h0 : ∀ c ∈ g.player0.hand, cardId c ∉ tableIds g.table := by
    intro c hc hmem
    refine hdisjE ?_ hmem
    exact List.mem_append_left _ (List.mem_append_left _
      (List.mem_append_left _ (List.mem_map_of_mem _ hc)))
  have h1 : ∀ c ∈ g.player1.hand, cardId c ∉ tableIds g.table := by
    intro c hc hmem
    refine hdisjE ?_ hmem
    exact List.mem_append_left _ (List.mem_append_right _
      (List.mem_map_of_mem _ hc))
  have hturn01 : g.turn = 0 ∨ g.turn = 1 := by omega
  rcases hturn01 with ht | ht
  · rw [show g.mover = g.player0 by simp [GameState.mover, ht]]
    exact ⟨hA, htd, h0⟩
  · rw [show g.mover = g.player1 by
      simp [GameState.mover, ht]]
    exact ⟨hC, htd, h1⟩

theorem table_with_card_distinct {g : GameState}
    (htd : allDistinctItems g.table = true)
    (hdisj : ∀ c ∈ g.mover.hand, cardId c ∉ tableIds g.table)
    {c : Card} (hc : c ∈ g.mover.hand) :
    allDistinctItems (g.table ++ [TableItem.card c]) = true := by
  rw [allDistinctItems_append, htd]
  have hsing : allDistinctItems [TableItem.card c] = true := by
    simp [allDistinctItems, itemMem]
  rw [hsing]
  simp only [Bool.true_and]
  rw [List.all_eq_true]
  intro x hx
  rcases hm : itemMem x [TableItem.card c] with _ | _
  · rfl
  · exfalso
    obtain ⟨y, hy, he⟩ := itemMem_iff.mp hm
    rw [List.mem_singleton] at hy
    subst hy
    cases x with
    | pile p => cases he
    | card c' =>
      have hid : cardId c' = cardId c := sameId_cardId (by simpa [itemEq] using he)
      have hmem : cardId c' ∈ tableIds g.table := by
        rw [tableIds, List.mem_flatMap]
        exact ⟨TableItem.card c', hx, by simp [itemIds]⟩
      rw [hid] at hmem
      exact hdisj c hc hmem

theorem table_items_not_card {g : GameState}
    (hdisj : ∀ c ∈ g.mover.hand, cardId c ∉ tableIds g.table)
    {c : Card} (hc : c ∈ g.mover.hand) :
    ∀ it ∈ g.table, itemEqCard it c = false := by
  intro it hit
  rcases hm : itemEqCard it c with _ | _
  · rfl
  · exfalso
    cases it with
    | pile p => cases hm
    | card c' =>
      have hid : cardId c' = cardId c := sameId_cardId (by simpa [itemEqCard] using hm)
      have hmem : cardId c' ∈ tableIds g.table := by
        rw [tableIds, List.mem_flatMap]
        exact ⟨TableItem.card c', hit, by simp [itemIds]⟩
      rw [hid] at hmem
      exact hdisj c hc hmem

theorem setMover_piles (g : GameState) (p : Player) :
    (g.setMover p).piles = g.piles := by
  unfold GameState.setMover
  split <;> rfl

theorem throw_preserves {g : GameState} {card : Card}
    (hwf : StateWF g) (hcard : card ∈ g.mover.hand) :
    ∃ g', ThrowAction.execute g (Action.mk .throw card card.value []) = some g' ∧
      (stateIds g').Perm (stateIds g) ∧ pilesAgree g' := by
  obtain ⟨hhand, htd, hdisj⟩ := stateWF_extract hwf
  obtain ⟨h1, h2, hsplit, hrm⟩ := removeCard_spec hhand hcard
  have hturn01 : g.turn = 0 ∨ g.turn = 1 := by
    have := hwf.1
    omega
  have hhandperm : g.mover.hand.Perm (card :: (h1 ++ h2)) := by
    rw [hsplit]
    exact List.perm_middle
  refine ⟨throwResult g (Action.mk .throw card card.value []) (h1 ++ h2),
    throwExecute_eq hrm, ?_, ?_⟩
  · rw [List.perm_iff_count]
    intro x
    have hc1 := (hhandperm.map cardId).count_eq x
    rcases hturn01 with ht | ht <;>
      simp [stateIds, throwResult, GameState.mover, GameState.setMover, ht,
        tableIds_append, List.count_append, tableIds, itemIds,
        List.count_cons] at hc1 ⊢ <;>
      omega
  · obtain ⟨_, _, hagree, _, _⟩ := hwf
    have hpiles : (throwResult g (Action.mk .throw card card.value [])
        (h1 ++ h2)).piles = g.piles := setMover_piles g _
    have htable : (throwResult g (Action.mk .throw card card.value [])
        (h1 ++ h2)).table = g.table ++ [TableItem.card card] := rfl
    constructor
    · intro pr hpr
      rw [hpiles] at hpr
      have := hagree.1 pr hpr
      refine ⟨this.1, ?_⟩
      rw [htable]
      exact List.mem_append_left _ this.2
    · intro p hp
      rw [htable] at hp
      have hp' : TableItem.pile p ∈ g.table := by
        rw [List.mem_append] at hp
        rcases hp with h | h
        · exact h
        · rw [List.mem_singleton] at h
          cases h
      rw [hpiles]
      exact hagree.2 p hp'

theorem pickup_preserves {g : GameState} {card : Card} {combo : List TableItem}
    (hwf : StateWF g) (hcard : card ∈ g.mover.hand)
    (hcombo : combo ∈ number_combinations g.table g.turn card.value none) :
    ∃ g', PickUpAction.execute g
        (Action.mk .pickUp card card.value combo) = some g' ∧
      (stateIds g').Perm (stateIds g) ∧ pilesAgree g' := by
  obtain ⟨hhand, htd, hdisj⟩ := stateWF_extract hwf
  obtain ⟨hturn, _, hagree, hkeys, _⟩ := hwf
  have hturn01 : g.turn = 0 ∨ g.turn = 1 := by omega
  obtain ⟨hcsub, hcdist, _⟩ := combo_facts
    (show allDistinctItems (tableWithAddition g.table none) = true from htd)
    hcombo
  obtain ⟨h1, h2, hsplit, hrm⟩ := removeCard_spec hhand hcard
  obtain ⟨piles', table', cr', hrun, hperm, _, hb1, hb2, _, _⟩ :=
    consumeItems_spec combo g.piles g.table [] none hcsub hcdist htd
      hagree.1 hagree.2 hkeys
  have hhandperm : g.mover.hand.Perm (card :: (h1 ++ h2)) := by
    rw [hsplit]
    exact List.perm_middle
  refine ⟨pickUpResult g (Action.mk .pickUp card card.value combo)
      (h1 ++ h2) piles' table',
    pickUpExecute_eq hrm hrun, ?_, ?_⟩
  · rw [List.perm_iff_count]
    intro x
    have hc1 := (hhandperm.map cardId).count_eq x
    have hc2 := (tableIds_perm hperm).count_eq x
    rw [tableIds_append] at hc2
    rcases hturn01 with ht | ht <;>
      simp [stateIds, pickUpResult, GameState.mover, GameState.setMover, ht,
        List.count_append, List.count_cons, expandItems_ids] at hc1 hc2 ⊢ <;>
      omega
  · exact ⟨fun pr hpr => hb1 pr hpr, fun p hp => hb2 p hp⟩

theorem pileon_preserves {g : GameState} {card : Card} {v : Nat}
    {combo : List TableItem}
    (hwf : StateWF g) (hcard : card ∈ g.mover.hand)
    (hv : v ∈ [9, 10, 11, 12, 13])
    (hcombo : combo ∈ number_combinations g.table g.turn v (some card)) :
    ∃ g', PileOnAction.execute g
        (Action.mk .pileOn card v (removeCardFromItems combo card)) = some g' ∧
      (stateIds g').Perm (stateIds g) ∧ pilesAgree g' := by
  obtain ⟨hhand, htd, hdisj⟩ := stateWF_extract hwf
  obtain ⟨hturn, _, hagree, hkeys, hpwf⟩ := hwf
  have hturn01 : g.turn = 0 ∨ g.turn = 1 := by omega
  have hvpos : v ≠ 0 := by
    simp at hv
    omega
  have htwa : allDistinctItems (tableWithAddition g.table (some card)) = true :=
    table_with_card_distinct htd hdisj hcard
  obtain ⟨hcsub, hcdist, heqin⟩ := combo_facts htwa hcombo
  have hnotcard := table_items_not_card hdisj hcard
  have hmatch : ∀ it ∈ combo, itemEqCard it card = true →
      it = TableItem.card card := by
    intro it hit hm
    have hmem := hcsub it hit
    rw [show tableWithAddition g.table (some card) =
      g.table ++ [TableItem.card card] from rfl, List.mem_append] at hmem
    rcases hmem with h | h
    · rw [hnotcard it h] at hm
      cases hm
    · rw [List.mem_singleton] at h
      exact h
  have hin : TableItem.card card ∈ combo := by
    obtain ⟨it, hit, he⟩ := addition_mem_combo hcombo
    rw [← hmatch it hit he]
    exact hit
  obtain ⟨hpermC, hsubC, hdistC, hnotC⟩ :=
    removeCardFromItems_spec hcdist hmatch hin
  have hrsub : ∀ x ∈ removeCardFromItems combo card, x ∈ g.table := by
    intro x hx
    have hxc := hsubC x hx
    have hmem := hcsub x hxc
    rw [show tableWithAddition g.table (some card) =
      g.table ++ [TableItem.card card] from rfl, List.mem_append] at hmem
    rcases hmem with h | h
    · exact h
    · rw [List.mem_singleton] at h
      rw [h] at hx
      exact absurd hx hnotC
  obtain ⟨h1, h2, hsplit, hrm⟩ := removeCard_spec hhand hcard
  obtain ⟨piles', table', cr', hrun, hperm, _, hb1, hb2, _, hbm⟩ :=
    consumeItems_spec (removeCardFromItems combo card) g.piles g.table []
      (some v) hrsub hdistC htd hagree.1 hagree.2 hkeys
  have hsumC := combo_expandSum hpwf hcombo
  have hsum : (((card :: expandItems (removeCardFromItems combo card)).map
      Card.value).sum) % v = 0 := by
    have hp2 : (expandItems combo).Perm
        (expandItems (TableItem.card card :: removeCardFromItems combo card)) :=
      hpermC.flatMap_right expandItem
    have hseq : ((expandItems combo).map Card.value).sum =
        ((expandItems (TableItem.card card ::
          removeCardFromItems combo card)).map Card.value).sum :=
      (hp2.map Card.value).sum_eq
    rw [hseq] at hsumC
    exact hsumC
  obtain ⟨np, hnp⟩ := mkPile_some (addCreator cr' g.turn) hvpos hsum
  obtain ⟨hnpv, hnpc⟩ := mkPile_fields hnp
  have htnodup : g.table.Nodup := allDistinct_nodup htd
  have hnov : ∀ x ∈ table', ¬ x.value = v := by
    intro x hx hxv
    have hxt : x ∈ g.table := hbm x hx
    have hxc : x ∈ combo := heqin x hxt hxv
    have hxne : x ≠ TableItem.card card := by
      intro he
      rw [he] at hxt
      have hcontr := hnotcard _ hxt
      simp [itemEqCard, sameId_refl] at hcontr
    have hxr : x ∈ removeCardFromItems combo card := by
      have hmm := hpermC.mem_iff.mp hxc
      rcases List.mem_cons.mp hmm with he | hr
      · exact absurd he hxne
      · exact hr
    have hnd2 : (removeCardFromItems combo card ++ table').Nodup :=
      (hperm.nodup_iff).mp htnodup
    rw [List.nodup_append] at hnd2
    exact hnd2.2.2 hxr hx
  have hfresh : v ∉ piles'.map Prod.fst := by
    intro hk
    rw [List.mem_map] at hk
    obtain ⟨pr, hpr, hprk⟩ := hk
    have hb := hb1 pr hpr
    refine hnov (TableItem.pile pr.2) hb.2 ?_
    show pr.2.value = v
    rw [← hb.1, hprk]
  refine ⟨pileOnResult g
      (Action.mk .pileOn card v (removeCardFromItems combo card))
      (h1 ++ h2) piles' table' np,
    pileOnExecute_eq hrm hrun hnp, ?_, ?_⟩
  · rw [List.perm_iff_count]
    intro x
    have hhandperm : g.mover.hand.Perm (card :: (h1 ++ h2)) := by
      rw [hsplit]
      exact List.perm_middle
    have hc1 := (hhandperm.map cardId).count_eq x
    have hc2 := (tableIds_perm hperm).count_eq x
    rw [tableIds_append] at hc2
    rcases hturn01 with ht | ht <;>
      simp [stateIds, pileOnResult, GameState.mover, GameState.setMover, ht,
        tableIds_append, List.count_append, List.count_cons, hnpc,
        expandItems_ids, tableIds, itemIds] at hc1 hc2 ⊢ <;>
      omega
  · have hpiles2 : (pileOnResult g
        (Action.mk .pileOn card v (removeCardFromItems combo card))
        (h1 ++ h2) piles' table' np).piles = piles' ++ [(v, np)] := by
      show alistInsert piles' v np = piles' ++ [(v, np)]
      exact alistInsert_fresh np hfresh
    have htable2 : (pileOnResult g
        (Action.mk .pileOn card v (removeCardFromItems combo card))
        (h1 ++ h2) piles' table' np).table =
        table' ++ [TableItem.pile np] := rfl
    constructor
    · intro pr hpr
      rw [hpiles2, List.mem_append] at hpr
      rcases hpr with hpr | hpr
      · have hb := hb1 pr hpr
        refine ⟨hb.1, ?_⟩
        rw [htable2]
        exact List.mem_append_left _ hb.2
      · rw [List.mem_singleton] at hpr
        subst hpr
        refine ⟨hnpv.symm, ?_⟩
        rw [htable2]
        exact List.mem_append_right _ (List.mem_singleton.mpr rfl)
    · intro p hp
      rw [htable2, List.mem_append] at hp
      rw [hpiles2]
      rcases hp with hp | hp
      · exact alistLookup_append_some (hb2 p hp)
      · rw [List.mem_singleton] at hp
        injection hp with hp
        rw [hp, hnpv]
        rw [alistLookup_append_none (alistLookup_none_iff.mpr hfresh)]
        show (if v = v then some np else alistLookup [] v) = some np
        rw [if_pos rfl]

/-- C4: executing any action the generator returns for a well-formed state
succeeds and leaves the total multiset of card identities across hands,
captured sets and the table (cards inside piles included) unchanged, and
afterwards the pile index and the table agree: every indexed pile is on
the table under its value key and every table pile is indexed under its
value. -/
theorem C4_execute_preserves (g : GameState) (a : Action)
    (hwf : StateWF g) (ha : a ∈ get_valid_actions g) :
    ∃ g', executeAction g a = some g' ∧
      (stateIds g').Perm (stateIds g) ∧ pilesAgree g' := by
  obtain ⟨card, hcard, hcase⟩ := get_valid_actions_inv ha
  rcases hcase with ⟨combo, hcombo, rfl⟩ | ⟨v, combo, hv, hcombo, rfl⟩ | rfl
  · exact pickup_preserves hwf hcard hcombo
  · exact pileon_preserves hwf hcard hv hcombo
  · exact throw_preserves hwf hcard

/-- C4 witness: the preservation statement applied to the PickUp of the
lone 9♥ by the 9♠ in `gC7`. -/
theorem C4_witness :
    StateWF gC7 ∧ aC7 ∈ get_valid_actions gC7 ∧
    ∃ g', executeAction gC7 aC7 = some g' ∧
      (stateIds g').Perm (stateIds gC7) ∧ pilesAgree g' := by
  have hwf : StateWF gC7 := by
    refine ⟨by decide, by decide, ⟨?_, ?_⟩, by decide, ?_⟩
    · intro pr hpr
      simp [gC7] at hpr
    · intro p hp
      simp [gC7] at hp
    · intro p hp
      simp [gC7] at hp
  exact ⟨hwf, by decide, C4_execute_preserves gC7 aC7 hwf (by decide)⟩

/-- C1: counterexample.  On the spec's own sample state (table
2♥, 7♠, 9♥, 9♦, hand 9♠) the generator does NOT offer three PickUp
actions with groups 9♥, 9♦ and 2♥+7♠: `number_combinations` appends all
equal-valued items to every combination and keeps only maximal
selections, so exactly one PickUp is offered, consuming all four cards at
once. -/
theorem C1_counterexample :
    get_valid_actions gC1 =
      [⟨.pickUp, c9s, 9, [.card c2h, .card c7s, .card c9h, .card c9d]⟩] ∧
    ¬ (get_valid_actions gC1).countP (fun a => a.actionType == .pickUp) = 3 := by
  decide

/-- C1 (amended): for the state table = 2♥, 7♠, 9♥, 9♦ and hand 9♠, the
generator offers exactly one PickUp action for the 9♠, whose consumed
items are all of 2♥, 7♠, 9♥ and 9♦ together, and offers no Throw for the
9♠. -/
theorem C1_single_maximal_pickup :
    get_valid_actions gC1 =
      [⟨.pickUp, c9s, 9, [.card c2h, .card c7s, .card c9h, .card c9d]⟩] ∧
    (get_valid_actions gC1).all (fun a => !(a.actionType == .throw)) = true := by
  decide

/-- C8: counterexample.  The generator never sorts by action kind (the
sort in the source is commented out): on table 7♥, 9♥ with hand 2♠, 9♠
the list is PileOn(2♠), Throw(2♠), PickUp(9♠), so a PileOn and a Throw
both precede a PickUp. -/
theorem C8_counterexample :
    (get_valid_actions gC8).map Action.actionType = [.pileOn, .throw, .pickUp] ∧
    ¬ List.Pairwise (fun a b => kindRank a ≤ kindRank b)
        ((get_valid_actions gC8).map Action.actionType) := by
  decide

/-- C3: counterexample.  When the accumulated differential is negative the
next round's opener is player 1, not player 0: from `gC3` the round ends
with differential −10 and `initialize_round` sets the turn to 1. -/
theorem C3_counterexample :
    (end_round gC3).map GameState.pointDifferential = some (-10) ∧
    (end_round gC3).map (fun g => (initialize_round g).turn) = some 1 ∧
    (1 : Nat) ≠ 0 := by
  decide

/-- C3 (amended): after a round is scored the signed difference of the two
players' round totals (points plus 50 per sweep) is added to the carried
differential, and the next opener is chosen from it with a NEGATIVE
differential giving the turn to player 1, a POSITIVE differential to
player 0, and zero leaving it unchanged. -/
theorem C3_differential_and_opener (g g' : GameState)
    (h : end_round g = some g') :
    g'.pointDifferential = g.pointDifferential +
      ((roundTotal g'.player0 : Int) - (roundTotal g'.player1 : Int)) ∧
    (initialize_round g').turn =
      (if g'.pointDifferential < 0 then 1
       else if 0 < g'.pointDifferential then 0 else g'.turn) := by
  refine ⟨?_, rfl⟩
  unfold end_round at h
  rw [Option.map_eq_some'] at h
  obtain ⟨g1, h1, h2⟩ := h
  have hpd : g1.pointDifferential = g.pointDifferential := by
    unfold endRoundLeftover at h1
    by_cases ht : g.table.isEmpty
    · rw [if_pos ht] at h1
      injection h1 with h1
      rw [← h1]
    · rw [if_neg ht] at h1
      rw [Option.bind_eq_some] at h1
      obtain ⟨cs, _, h1⟩ := h1
      rw [Option.map_eq_some'] at h1
      obtain ⟨i, _, h1⟩ := h1
      rw [← h1]
      unfold updatePlayerAt
      split <;> rfl
  rw [← h2]
  unfold endRoundScore
  split_ifs <;> simp [hpd, roundTotal]

/-- C3 witness: the amended statement applied to the concrete state
`gC3`. -/
theorem C3_witness :
    end_round gC3 = some gC3res ∧
    (gC3res.pointDifferential = gC3.pointDifferential +
      ((roundTotal gC3res.player0 : Int) - (roundTotal gC3res.player1 : Int)) ∧
    (initialize_round gC3res).turn =
      (if gC3res.pointDifferential < 0 then 1
       else if 0 < gC3res.pointDifferential then 0 else gC3res.turn)) :=
  ⟨by decide, C3_differential_and_opener gC3 gC3res (by decide)⟩

/-- C6: the pile constructor fails exactly when the card values do not sum
to a multiple of the declared value, and on success the `doubled` flag is
set exactly when the quotient is at least two.  In the embedding the
constructor is the pure function `mkPile`: it reads and writes no table or
index state, so a failed construction mutates nothing. -/
theorem C6_pile_construction (creators : List Nat) (cards : List Card)
    (v : Nat) (hv : 0 < v) :
    (mkPile creators cards v = none ↔
      ¬ (cards.map Card.value).sum % v = 0) ∧
    ∀ p, mkPile creators cards v = some p →
      (p.doubled = true ↔ 2 ≤ (cards.map Card.value).sum / v) := by
  have hv' : ¬ v = 0 := Nat.pos_iff_ne_zero.mp hv
  unfold mkPile
  rw [if_neg hv']
  by_cases h : (cards.map Card.value).sum % v = 0
  · rw [if_pos h]
    constructor
    · simp [h]
    · intro p hp
      injection hp with hp
      rw [← hp]
      simp
  · rw [if_neg h]
    constructor
    · simp [h]
    · intro p hp
      exact absurd hp (by simp)

/-- C6 witness: the constructor statement applied to a single nine built
at value 9. -/
theorem C6_witness :
    0 < 9 ∧
    ((mkPile [] [⟨9, 0, 0⟩] 9 = none ↔
      ¬ (([⟨9, 0, 0⟩] : List Card).map Card.value).sum % 9 = 0) ∧
    ∀ p, mkPile [] [⟨9, 0, 0⟩] 9 = some p →
      (p.doubled = true ↔ 2 ≤ (([⟨9, 0, 0⟩] : List Card).map Card.value).sum / 9)) :=
  ⟨by decide, C6_pile_construction [] [⟨9, 0, 0⟩] 9 (by decide)⟩

end Sweep
